import Mathlib

/-!
Verification of the Provider Routing & Country-Targeting Engine of the
reality-mode-search repository, as a shallow embedding in Lean 4.

Strings from the TypeScript source are embedded as `List Char` (written
`LChar` below) where character-level reasoning is needed (URL
canonicalization), and as `String` elsewhere.  JavaScript numbers that are
used as integers (timestamps, counters, HTTP status codes) are embedded as
`Nat` / `Int`; the one fractional computation (histogram percentages) is
embedded as `ℚ` with `round` matching `Math.round` on non-negative values.
-/

abbrev LChar := List Char

/-- Whitespace recognized by the embedded `trim` (the ASCII whitespace
characters; source: JavaScript `String.prototype.trim`). -/
def isWsChar (c : Char) : Bool :=
  c = ' ' || c = '\t' || c = '\n' || c = '\r' || c = '\x0b' || c = '\x0c'

/-- Embedding of JavaScript `String.prototype.trim` on `List Char`. -/
def jsTrim (l : LChar) : LChar :=
  ((l.dropWhile isWsChar).reverse.dropWhile isWsChar).reverse

/-! ### Rate limiter (src/src/lib/rateLimit.ts)

The source keeps a process-wide `Map` from client key to a list of request
timestamps.  Each bucket is handled independently, so the embedding models
one bucket: `rateLimit` takes the stored timestamp list and the current
time and returns the new list together with the decision. -/

def WINDOW_MS : Nat := 60 * 60 * 1000

def LIMIT : Nat := 30

/-- Outcome of one rate-limiter check. -/
structure RateLimitOutcome where
  times : List Nat
  allowed : Bool
  retryAfterSeconds : Nat
deriving Repr, DecidableEq

/-- Embedding of `rateLimit` from src/src/lib/rateLimit.ts, for a single
bucket: prune timestamps strictly older than `now - WINDOW_MS` from the
front, reject when at least `LIMIT` remain, otherwise append `now`.
JavaScript computes `oldest + WINDOW_MS - nowMs` in exact integer
arithmetic; on the rejection branch the surviving head satisfies
`oldest + WINDOW_MS ≥ now` whenever timestamps are non-negative, so the
truncated `Nat` subtraction below agrees with it, as does the `Nat`
ceiling division `(d + 999) / 1000` with `Math.ceil(d / 1000)`. -/
def rateLimit (times : List Nat) (now : Nat) : RateLimitOutcome :=
  let cutoff := now - WINDOW_MS
  let pruned := times.dropWhile (fun t => decide (t < cutoff))
  if pruned.length ≥ LIMIT then
    let oldest := pruned.head?.getD now
    { times := pruned
      allowed := false
      retryAfterSeconds := max 1 ((oldest + WINDOW_MS - now + 999) / 1000) }
  else
    { times := pruned ++ [now], allowed := true, retryAfterSeconds := 0 }

/-- The specification-side retry-after formula,
`ceil((oldest + W - now)/1000)` clamped to at least 1, computed in exact
rational arithmetic. -/
def specRetryAfter (oldest now : Nat) : ℤ :=
  max 1 ⌈((oldest : ℚ) + (WINDOW_MS : ℚ) - (now : ℚ)) / 1000⌉

/-- Folding a sequence of rate-limiter calls through one bucket, starting
from a stored timestamp list; returns the final list and the outcome of
every call in order. -/
def runCalls (times : List Nat) (nows : List Nat) : List Nat × List RateLimitOutcome :=
  match nows with
  | [] => (times, [])
  | now :: rest =>
    let o := rateLimit times now
    let (final, outs) := runCalls o.times rest
    (final, o :: outs)

/-! ### Daily miss budget (src/unnamed/part_012, `consumeServerMissBudget`)

The source keeps `serverKeyDailyMissState : { date: string; misses: number }`
in a module-level variable.  The embedding passes the state explicitly and
takes the current UTC date string (`todayUtc()`) as a parameter. -/

/-- The daily miss-budget state (`serverKeyDailyMissState`). -/
structure MissState where
  date : String
  misses : Nat
deriving Repr, DecidableEq

/-- The initial module state `{ date: "", misses: 0 }`. -/
def initialMissState : MissState := { date := "", misses := 0 }

/-- Embedding of `consumeServerMissBudget` from src/unnamed/part_012:
reset the counter when the stored date differs from today, refuse without
consuming when the counter has reached the budget, otherwise consume one
unit.  Returns the decision and the updated state. -/
def consumeServerMissBudget (dailyMissBudget : Nat) (today : String) (st : MissState) :
    Bool × MissState :=
  let st1 := if st.date ≠ today then { date := today, misses := 0 } else st
  if st1.misses ≥ dailyMissBudget then
    (false, st1)
  else
    (true, { st1 with misses := st1.misses + 1 })

/-! ### Provider routing (src/src/lib/providerRouter.ts)

Country codes, credentials and reasons are embedded as `String`.  The
`Partial Record` credential maps are embedded as total functions returning
`""` for an absent entry, which is how the source consumes them
(`keys.user[provider]?.trim() || ""`). -/

/-- Lower-casing a string character-wise (JavaScript `toLowerCase` on the
ASCII range, which is all the source applies it to). -/
def toLowerString (s : String) : String :=
  String.mk (s.data.map Char.toLower)

/-- Embedding of JavaScript `trim` on `String`. -/
def strTrim (s : String) : String :=
  String.mk (jsTrim s.data)

inductive ProviderId where
  | brave
  | serpapi
  | searchapi
deriving Repr, DecidableEq

inductive ProviderKeySource where
  | user
  | server
deriving Repr, DecidableEq

inductive CountryResolutionMode where
  | exact
  | proxy
  | global
deriving Repr, DecidableEq

/-- Embedding of the `ProviderAttempt` record. -/
structure ProviderAttempt where
  provider : ProviderId
  key : String
  keySource : ProviderKeySource
  requestedCountry : Option String
  resolvedCountry : Option String
  countryParam : Option String
  exactCountryApplied : Bool
  providerSupportsCountry : Bool
  countryResolution : CountryResolutionMode
  reason : String
deriving Repr, DecidableEq

/-- Embedding of the `ProviderKeys` record. -/
structure ProviderKeys where
  user : ProviderId → String
  server : ProviderId → String

/-- Modelled from the spec: the static Brave supported-country table
(`BRAVE_SUPPORTED_COUNTRIES` in the `lib/brave` module, which is absent
from src/; src/ only imports it).  The contents follow the inline copy of
the same table kept in the repository's earlier single-provider route
(src/unnamed/part_013). -/
def BRAVE_SUPPORTED_COUNTRIES : List String :=
  ["AR", "AU", "AT", "BE", "BR", "CA", "CL", "DK", "FI", "FR", "DE", "GR",
   "HK", "IN", "ID", "IT", "JP", "KR", "MY", "MX", "NL", "NZ", "NO", "CN",
   "PL", "PT", "PH", "RU", "SA", "ZA", "ES", "SE", "CH", "TW", "TR", "GB",
   "US", "ALL"]

/-- Modelled from the spec: the Brave worldwide sentinel
(`BRAVE_GLOBAL_COUNTRY` in the missing `lib/brave` module; the inline copy
in src/unnamed/part_013 sets it to `"ALL"`). -/
def BRAVE_GLOBAL_COUNTRY : String := "ALL"

def SERPAPI_UNSUPPORTED_COUNTRIES : List String :=
  ["AX", "CU", "IR", "KP", "SY"]

def SEARCHAPI_UNSUPPORTED_COUNTRIES : List String :=
  ["AX", "BL", "BQ", "CW", "MF", "SS", "SX"]

/-- Embedding of the `PROVIDER_PROXY_COUNTRY` table. -/
def providerProxyCountryTable (provider : ProviderId) : List (String × String) :=
  match provider with
  | .serpapi => [("AX", "FI"), ("CU", "MX"), ("IR", "TR"), ("KP", "KR"), ("SY", "TR")]
  | .searchapi =>
    [("AX", "FI"), ("BL", "FR"), ("BQ", "NL"), ("CW", "NL"), ("MF", "FR"),
     ("SS", "SD"), ("SX", "NL")]
  | .brave =>
    [("AX", "FI"), ("BL", "FR"), ("BQ", "NL"), ("CW", "NL"), ("MF", "FR"),
     ("SS", "ZA"), ("SX", "NL"), ("CU", "MX"), ("IR", "TR"), ("KP", "KR"),
     ("SY", "TR"), ("UM", "US"), ("EH", "ES")]

def EXACT_COUNTRY_PROVIDER_ORDER : List ProviderId :=
  [.serpapi, .searchapi, .brave]

def GLOBAL_PROVIDER_ORDER : List ProviderId :=
  [.serpapi, .searchapi, .brave]

/-- Embedding of `providerSupportsCountry`. -/
def providerSupportsCountry (provider : ProviderId) (country : String) : Bool :=
  match provider with
  | .brave => BRAVE_SUPPORTED_COUNTRIES.contains country
  | .serpapi => !SERPAPI_UNSUPPORTED_COUNTRIES.contains country
  | .searchapi => !SEARCHAPI_UNSUPPORTED_COUNTRIES.contains country

/-- Embedding of `hasAnyExactCountrySupport`. -/
def hasAnyExactCountrySupport (country : String) : Bool :=
  providerSupportsCountry .brave country
    || providerSupportsCountry .serpapi country
    || providerSupportsCountry .searchapi country

/-- Embedding of `resolveProxyCountry`: a substitute is returned only when
the provider itself exactly supports the substitute. -/
def resolveProxyCountry (provider : ProviderId) (country : String) : Option String :=
  match (providerProxyCountryTable provider).lookup country with
  | none => none
  | some mapped => if providerSupportsCountry provider mapped then some mapped else none

/-- Embedding of `hasAnyTargetedCountrySupport`. -/
def hasAnyTargetedCountrySupport (country : String) : Bool :=
  hasAnyExactCountrySupport country
    || (resolveProxyCountry .brave country).isSome
    || (resolveProxyCountry .serpapi country).isSome
    || (resolveProxyCountry .searchapi country).isSome

/-- Embedding of `toCountryParam` (Brave takes the uppercase code, the
Google-backed providers take the lowercase code). -/
def toCountryParam (provider : ProviderId) (country : String) : String :=
  if provider = .brave then country else toLowerString country

/-- The identity key of an attempt, per the dedup signature built in
`pushAttempt` (`provider|keySource|requestedCountry|resolvedCountry|
countryParam|countryResolution`, with `"none"` for null).  No reachable
field value equals the string `"none"`, so tuple equality coincides with
equality of the source's signature strings. -/
def attemptSig (a : ProviderAttempt) :
    ProviderId × ProviderKeySource × Option String × Option String × Option String
      × CountryResolutionMode :=
  (a.provider, a.keySource, a.requestedCountry, a.resolvedCountry, a.countryParam,
   a.countryResolution)

/-- Embedding of `pushAttempt`: append unless an attempt with the same
identity key is already present. -/
def pushAttempt (out : List ProviderAttempt) (a : ProviderAttempt) : List ProviderAttempt :=
  if out.any (fun b => decide (attemptSig b = attemptSig a)) then out else out ++ [a]

/-- Embedding of `keyCandidatesForProvider`: the trimmed user key first
(when non-empty), then the trimmed server key (when non-empty). -/
def keyCandidatesForProvider (provider : ProviderId) (keys : ProviderKeys) :
    List (String × ProviderKeySource) :=
  (if strTrim (keys.user provider) ≠ "" then [(strTrim (keys.user provider), .user)] else [])
    ++ (if strTrim (keys.server provider) ≠ "" then [(strTrim (keys.server provider), .server)]
        else [])

/-- Embedding of the `addProviderAttempts` closure inside
`buildProviderAttempts`: one `pushAttempt` per available credential. -/
def addProviderAttempts (keys : ProviderKeys) (out : List ProviderAttempt)
    (provider : ProviderId) (requestedCountry resolvedCountry countryParam : Option String)
    (exactCountryApplied supports : Bool) (countryResolution : CountryResolutionMode)
    (reason : String) : List ProviderAttempt :=
  (keyCandidatesForProvider provider keys).foldl
    (fun acc kc =>
      pushAttempt acc
        { provider := provider
          key := kc.1
          keySource := kc.2
          requestedCountry := requestedCountry
          resolvedCountry := resolvedCountry
          countryParam := countryParam
          exactCountryApplied := exactCountryApplied
          providerSupportsCountry := supports
          countryResolution := countryResolution
          reason := reason })
    out

/-- Embedding of `buildProviderAttempts`: the exact tier, then the proxy
tier, then the global tier when a country hint is present; only the global
tier otherwise. -/
def buildProviderAttempts (countryHint : Option String) (keys : ProviderKeys) :
    List ProviderAttempt :=
  match countryHint with
  | some ch =>
    let afterExact :=
      EXACT_COUNTRY_PROVIDER_ORDER.foldl
        (fun acc p =>
          if providerSupportsCountry p ch then
            addProviderAttempts keys acc p (some ch) (some ch) (some (toCountryParam p ch))
              true true .exact "exact_country_match"
          else acc)
        []
    let afterProxy :=
      EXACT_COUNTRY_PROVIDER_ORDER.foldl
        (fun acc p =>
          if providerSupportsCountry p ch then acc
          else
            match resolveProxyCountry p ch with
            | none => acc
            | some proxyCountry =>
              addProviderAttempts keys acc p (some ch) (some proxyCountry)
                (some (toCountryParam p proxyCountry)) false false .proxy
                "proxy_country_match")
        afterExact
    GLOBAL_PROVIDER_ORDER.foldl
      (fun acc p =>
        addProviderAttempts keys acc p (some ch) none
          (if p = .brave then some BRAVE_GLOBAL_COUNTRY else none) false
          (providerSupportsCountry p ch) .global "global_fallback")
      afterProxy
  | none =>
    GLOBAL_PROVIDER_ORDER.foldl
      (fun acc p =>
        addProviderAttempts keys acc p none none
          (if p = .brave then some BRAVE_GLOBAL_COUNTRY else none) false true .global
          "global_default")
      []

/-- Embedding of `hasAnyProviderKey`. -/
def hasAnyProviderKey (keys : ProviderKeys) : Bool :=
  [ProviderId.brave, .serpapi, .searchapi].any (fun p => strTrim (keys.user p) ≠ "")
    || [ProviderId.brave, .serpapi, .searchapi].any (fun p => strTrim (keys.server p) ≠ "")

/-- Embedding of `hasAnyUserProviderKey`. -/
def hasAnyUserProviderKey (keys : ProviderKeys) : Bool :=
  [ProviderId.brave, .serpapi, .searchapi].any (fun p => strTrim (keys.user p) ≠ "")

/-- Distinctness of attempt identity keys. -/
def attemptSigNe (x y : ProviderAttempt) : Prop :=
  attemptSig x ≠ attemptSig y

/-- Numeric tier of a resolution mode (exact before proxy before global). -/
def tierRank (m : CountryResolutionMode) : Nat :=
  match m with
  | .exact => 0
  | .proxy => 1
  | .global => 2

/-- Invariant carried through plan construction: pairwise-distinct identity
keys, tier-monotone order, and all tiers at most `r`. -/
def PlanInv (r : Nat) (l : List ProviderAttempt) : Prop :=
  l.Pairwise attemptSigNe
    ∧ l.Pairwise (fun x y => tierRank x.countryResolution ≤ tierRank y.countryResolution)
    ∧ ∀ b ∈ l, tierRank b.countryResolution ≤ r

/-- A credential configuration with only server keys, used to instantiate
theorems at concrete inputs. -/
def keysAllServer : ProviderKeys :=
  { user := fun _ => "", server := fun _ => "server-key" }

/-! ### URL canonicalization (src/unnamed/part_006, `canonicalizeUrl`)

The source relies on the platform WHATWG `URL` / `URLSearchParams`
classes, which are not part of the repository.  Modelled from the spec:
the absolute-URL parser behind `new URL(...)` ("If the input is not a
parseable absolute URL, canonicalization returns the original trimmed
string unchanged"), with scheme, host, path and query components; the
parser strips tab/newline characters, rejects hosts containing
whitespace, and percent-encodes whitespace in the path and query, as the
WHATWG parser does; `URLSearchParams` splitting, form-urlencoded
percent-decoding and percent-encoding are modelled likewise.  Characters
above the ASCII range are carried literally. -/

def hexDigitUpper (n : Nat) : Char :=
  "0123456789ABCDEF".data.getD n '0'

def hexVal (c : Char) : Nat :=
  if '0' ≤ c ∧ c ≤ '9' then c.toNat - '0'.toNat
  else if 'A' ≤ c ∧ c ≤ 'F' then c.toNat - 'A'.toNat + 10
  else if 'a' ≤ c ∧ c ≤ 'f' then c.toNat - 'a'.toNat + 10
  else 0

def isHexDigit (c : Char) : Bool :=
  ('0' ≤ c && c ≤ '9') || ('A' ≤ c && c ≤ 'F') || ('a' ≤ c && c ≤ 'f')

/-- Characters serialized verbatim by form-urlencoding (alphanumerics and
`*-._`); characters above ASCII are carried literally in this model. -/
def formSafeChar (c : Char) : Bool :=
  c.isAlphanum || c = '*' || c = '-' || c = '.' || c = '_' || decide (c.toNat ≥ 128)

/-- Form-urlencoding of one character (space becomes `+`). -/
def formEncodeChar (c : Char) : LChar :=
  if c = ' ' then ['+']
  else if formSafeChar c then [c]
  else ['%', hexDigitUpper (c.toNat / 16 % 16), hexDigitUpper (c.toNat % 16)]

def formEncode : LChar → LChar
  | [] => []
  | c :: r => formEncodeChar c ++ formEncode r

/-- Form-urlencoded percent-decoding (`+` becomes space, invalid escapes
are carried literally). -/
def percentDecode : LChar → LChar
  | [] => []
  | c :: r =>
    if c = '+' then ' ' :: percentDecode r
    else if c = '%' then
      match r with
      | h1 :: h2 :: r2 =>
        if isHexDigit h1 && isHexDigit h2 then
          Char.ofNat (16 * hexVal h1 + hexVal h2) :: percentDecode r2
        else '%' :: percentDecode (h1 :: h2 :: r2)
      | [h1] => '%' :: percentDecode [h1]
      | [] => ['%']
    else c :: percentDecode r
termination_by l => l.length
decreasing_by all_goals simp +arith

def splitOnChar (sep : Char) : LChar → List LChar
  | [] => [[]]
  | c :: r =>
    match splitOnChar sep r with
    | [] => if c = sep then [[], []] else [[c]]
    | s :: ss => if c = sep then [] :: s :: ss else (c :: s) :: ss

/-- One `&`-separated query segment: empty segments are ignored, a
segment splits at its first `=`, and key and value are percent-decoded. -/
def parseQuerySegment (seg : LChar) : Option (LChar × LChar) :=
  if seg.isEmpty then none
  else
    let k := seg.takeWhile (fun c => c != '=')
    match seg.dropWhile (fun c => c != '=') with
    | '=' :: v => some (percentDecode k, percentDecode v)
    | _ => some (percentDecode k, [])

/-- The pairs enumerated by `url.searchParams.entries()`. -/
def parseQueryPairs (q : LChar) : List (LChar × LChar) :=
  (splitOnChar '&' q).filterMap parseQuerySegment

/-- `new URLSearchParams(pairs).toString()`: form-encode each key and
value and join `k=v` segments with `&`. -/
def serializePairs : List (LChar × LChar) → LChar
  | [] => []
  | [p] => formEncode p.1 ++ '=' :: formEncode p.2
  | p :: rest => formEncode p.1 ++ '=' :: formEncode p.2 ++ '&' :: serializePairs rest

/-- Percent-encoding of whitespace characters applied by the URL parser
inside path and query components. -/
def pctEncodeWsChar (c : Char) : LChar :=
  if isWsChar c then ['%', hexDigitUpper (c.toNat / 16 % 16), hexDigitUpper (c.toNat % 16)]
  else [c]

def pctEncodeWs : LChar → LChar
  | [] => []
  | c :: r => pctEncodeWsChar c ++ pctEncodeWs r

/-- Tab and newline characters, removed everywhere by the URL parser. -/
def isTabNl (c : Char) : Bool :=
  c = '\t' || c = '\n' || c = '\r'

def stripTabNl (l : LChar) : LChar :=
  l.filter (fun c => !isTabNl c)

/-- An absolute URL as far as `canonicalizeUrl` consumes it: the fragment
is dropped on parse since canonicalization clears `url.hash` before
serializing. -/
structure UrlModel where
  scheme : LChar
  host : LChar
  path : LChar
  query : Option LChar
deriving Repr, DecidableEq

def hostDelim (c : Char) : Bool :=
  c = '/' || c = '?' || c = '#'

def pathDelim (c : Char) : Bool :=
  c = '?' || c = '#'

/-- Modelled from the spec: the absolute-URL parser (`new URL`). -/
def parseUrl (l : LChar) : Option UrlModel :=
  let cleaned := stripTabNl l
  let scheme := cleaned.takeWhile Char.isAlpha
  match cleaned.dropWhile Char.isAlpha with
  | ':' :: '/' :: '/' :: r =>
    if scheme.isEmpty then none
    else
      let host := r.takeWhile (fun c => !hostDelim c)
      if host.isEmpty || host.any isWsChar then none
      else
        let r2 := r.dropWhile (fun c => !hostDelim c)
        let path := r2.takeWhile (fun c => !pathDelim c)
        match r2.dropWhile (fun c => !pathDelim c) with
        | '?' :: r4 =>
          some { scheme := scheme, host := host, path := pctEncodeWs path
                 query := some (pctEncodeWs (r4.takeWhile (fun c => c != '#'))) }
        | _ =>
          some { scheme := scheme, host := host, path := pctEncodeWs path, query := none }
  | _ => none

/-- `url.toString()` with an empty fragment. -/
def serializeUrl (u : UrlModel) : LChar :=
  u.scheme ++ ':' :: '/' :: '/' :: (u.host ++ u.path
    ++ (match u.query with | none => [] | some q => '?' :: q))

def TRACKING_PARAMS : List LChar :=
  [['g','c','l','i','d'], ['f','b','c','l','i','d'], ['m','c','_','c','i','d'],
   ['m','c','_','e','i','d'], ['i','g','s','h','i','d']]

def lowerL (l : LChar) : LChar :=
  l.map Char.toLower

def isUtmKey (l : LChar) : Bool :=
  match l with
  | 'u' :: 't' :: 'm' :: '_' :: _ => true
  | _ => false

/-- The filter in `canonicalizeUrl`: drop a parameter whose lower-cased
key starts with `utm_` or is in the tracking block-set. -/
def isTrackedKey (k : LChar) : Bool :=
  isUtmKey (lowerL k) || TRACKING_PARAMS.contains (lowerL k)

/-- The sort comparator in `canonicalizeUrl`: by key, then by value,
lexicographically ascending (the embedding of `localeCompare` is the
code-point order). -/
def pairLe (a b : LChar × LChar) : Bool :=
  if a.1 = b.1 then decide (a.2 ≤ b.2) else decide (a.1 < b.1)

/-- The canonical query component: enumerate the query pairs, drop
tracking parameters, sort by `(key, value)`, re-serialize; an empty kept
list clears the query (`url.search = ""`). -/
def canonQuery (q : Option LChar) : Option LChar :=
  let pairs := match q with | none => [] | some qq => parseQueryPairs qq
  let kept := pairs.filter (fun p => !isTrackedKey p.1)
  let sorted := kept.mergeSort pairLe
  if sorted.isEmpty then none else some (serializePairs sorted)

/-- Embedding of `canonicalizeUrl` from src/unnamed/part_006: trim; return
the trimmed input unchanged when it does not parse as an absolute URL;
otherwise lower-case the host, drop the fragment, drop tracking
parameters, sort the remaining parameters by `(key, value)` and
re-serialize. The canonical form of a parsed URL: host lower-cased (the
fragment is already dropped by the parser), query canonicalized. -/
def canonUrlOf (u : UrlModel) : UrlModel :=
  { scheme := u.scheme
    host := lowerL u.host
    path := u.path
    query := canonQuery u.query }

/-- Embedding of `canonicalizeUrl` from src/unnamed/part_006 (see the
doc comment two definitions up). -/
def canonicalizeUrl (raw : LChar) : LChar :=
  let input := jsTrim raw
  if input.isEmpty then []
  else
    match parseUrl input with
    | none => input
    | some u => serializeUrl (canonUrlOf u)

/-- Recursive worker for `dedupByCanonicalUrl`, carrying the `seen` set of
canonical keys. -/
def dedupGo {α : Type} (url : α → LChar) (seen : List LChar) : List α → List α
  | [] => []
  | r :: rest =>
    let raw := jsTrim (url r)
    if raw.isEmpty then r :: dedupGo url seen rest
    else
      let canon := canonicalizeUrl raw
      let key := if canon.isEmpty then raw else canon
      if decide (key ∈ seen) then dedupGo url seen rest
      else r :: dedupGo url (key :: seen) rest

/-- Embedding of `dedupByCanonicalUrl` from src/unnamed/part_006, generic
over the record type as in the source (`T extends { url: string }` becomes
a projection `url : α → LChar`). -/
def dedupByCanonicalUrl {α : Type} (url : α → LChar) (results : List α) : List α :=
  dedupGo url [] results

/-! ### Upstream JSON parsing and the attempt walk (src/src/lib/providerRouter.ts
and the GET handler in src/unnamed/part_012)

`fetchJsonWithTimeout` returns `{ ok: res.ok, status, data }` where `data`
is the `JSON.parse` of the response body and `null` when the body is
empty, unparseable, or the fetch failed or timed out.  The embedding
replaces the network by an oracle `fetches : Nat → UpstreamFetch` giving
the upstream outcome of the i-th attempt, with `Json.null` standing for
the unparseable-body case. -/

inductive Json where
  | null
  | bool (b : Bool)
  | num (n : Int)
  | str (s : String)
  | arr (elems : List Json)
  | obj (fields : List (String × Json))

/-- JavaScript property access on a parsed object; an absent property
(`undefined`) behaves like `null` under `asString` / `asRecord` /
`Array.isArray`, which is all the source applies to it. -/
def jsonGet (fields : List (String × Json)) (k : String) : Json :=
  match fields.lookup k with
  | some v => v
  | none => .null

/-- Embedding of `asString`. -/
def asString (v : Json) : String :=
  match v with
  | .str s => s
  | _ => ""

/-- Embedding of `asRecord`.  A JavaScript array is an object, but reading
the named fields `url`, `title`, ... of an array yields `undefined`, so
mapping arrays to the empty field list is observationally equal for the
source's uses. -/
def asRecord (v : Json) : List (String × Json) :=
  match v with
  | .obj fields => fields
  | _ => []

/-- `Array.isArray` guard. -/
def asArray (v : Json) : Option (List Json) :=
  match v with
  | .arr elems => some elems
  | _ => none

/-- JavaScript `||` on strings (empty string is falsy). -/
def jsOr (a b : String) : String :=
  if a = "" then b else a

/-- Embedding of the `ProviderRawResult` record. -/
structure ProviderRawResult where
  title : String
  url : String
  snippet : String
  display_url : String
deriving Repr, DecidableEq

/-- Embedding of `deriveDisplayUrl` (on the URL model of `new URL`). -/
def deriveDisplayUrl (urlStr : String) : String :=
  match parseUrl urlStr.data with
  | none => urlStr
  | some u => String.mk (u.host ++ (if u.path = ['/'] then [] else u.path))

/-- Embedding of `toRawResult`. -/
def toRawResult (row : List (String × Json)) : ProviderRawResult :=
  let url := jsOr (asString (jsonGet row "url")) (jsOr (asString (jsonGet row "link"))
    (jsOr (asString (jsonGet row "destination")) (asString (jsonGet row "redirect_link"))))
  { title := jsOr (asString (jsonGet row "title")) (asString (jsonGet row "name"))
    url := url
    snippet := jsOr (asString (jsonGet row "description"))
      (jsOr (asString (jsonGet row "snippet")) (asString (jsonGet row "content")))
    display_url := jsOr (asString (jsonGet row "display_url"))
      (jsOr (asString (jsonGet row "displayed_link"))
        (jsOr (asString (jsonGet row "display_link")) (deriveDisplayUrl url))) }

/-- Embedding of `parseBraveResults`. -/
def parseBraveResults (data : Json) : List ProviderRawResult :=
  let root := asRecord data
  let web := asRecord (jsonGet root "web")
  let rows :=
    match asArray (jsonGet web "results") with
    | some rs => rs
    | none =>
      match asArray (jsonGet root "results") with
      | some rs => rs
      | none => []
  (rows.map (fun r => toRawResult (asRecord r))).filter (fun r => r.url != "")

/-- Embedding of `parseGoogleLikeResults`. -/
def parseGoogleLikeResults (data : Json) : List ProviderRawResult :=
  let root := asRecord data
  let rows :=
    match asArray (jsonGet root "organic_results") with
    | some rs => rs
    | none =>
      match asArray (jsonGet root "results") with
      | some rs => rs
      | none =>
        match asArray (jsonGet root "items") with
        | some rs => rs
        | none => []
  (rows.map (fun r => toRawResult (asRecord r))).filter (fun r => r.url != "")

/-- The outcome of `fetchJsonWithTimeout`: HTTP-level success flag, status
(0 on transport failure or timeout) and parsed body (`Json.null` when the
body was empty or unparseable). -/
structure UpstreamFetch where
  ok : Bool
  status : Int
  data : Json

/-- Embedding of `ProviderSearchResult`. -/
structure ProviderSearchResult where
  ok : Bool
  provider : ProviderId
  status : Int
  results : List ProviderRawResult

/-- Embedding of `executeProviderAttempt`, with the network call replaced
by its `UpstreamFetch` outcome: every provider branch returns
`ok = upstream.ok` and parses results only when `upstream.ok`. -/
def executeProviderAttempt (attempt : ProviderAttempt) (upstream : UpstreamFetch) :
    ProviderSearchResult :=
  { ok := upstream.ok
    provider := attempt.provider
    status := upstream.status
    results :=
      if upstream.ok then
        match attempt.provider with
        | .brave => parseBraveResults upstream.data
        | _ => parseGoogleLikeResults upstream.data
      else [] }

/-- One entry of the attempt trace accumulated by the GET handler. -/
structure TraceEntry where
  provider : ProviderId
  status : Int
  key_source : ProviderKeySource
  reason : String
  exact_country_applied : Bool
deriving Repr, DecidableEq

/-- Result of the sequential attempt walk: the trace, the winning attempt
(with its index and parsed results) if any, the final miss-budget state,
and the indices of the attempts for which a network call was issued. -/
structure WalkResult where
  trace : List TraceEntry
  selected : Option (Nat × ProviderAttempt × List ProviderRawResult)
  missState : MissState
  executed : List Nat

/-- The budget gate applied to one attempt: server-credential attempts
consult `consumeServerMissBudget`, user-credential attempts pass with the
state untouched. -/
def walkGate (budget : Nat) (today : String) (a : ProviderAttempt) (st : MissState) :
    Bool × MissState :=
  if a.keySource = .server then consumeServerMissBudget budget today st else (true, st)

/-- The trace entry pushed for an executed attempt. -/
def execEntry (a : ProviderAttempt) (u : UpstreamFetch) : TraceEntry :=
  { provider := a.provider, status := u.status, key_source := a.keySource
    reason := a.reason, exact_country_applied := a.exactCountryApplied }

/-- The trace entry pushed for an attempt skipped by the budget gate. -/
def skipEntry (a : ProviderAttempt) : TraceEntry :=
  { provider := a.provider, status := 503, key_source := a.keySource
    reason := "daily_miss_budget_exceeded", exact_country_applied := a.exactCountryApplied }

/-- Embedding of the `for (const attempt of attempts)` walk in the GET
handler of src/unnamed/part_012, from attempt index `i` on: gate
server-credential attempts on the daily miss budget (skip with a 503
trace entry and no network call when refused), execute one fetch
otherwise, record the outcome, stop at the first `upstream.ok`. -/
def runWalkGo (fetches : Nat → UpstreamFetch) (budget : Nat) (today : String) :
    List ProviderAttempt → Nat → MissState → WalkResult
  | [], _, st => { trace := [], selected := none, missState := st, executed := [] }
  | a :: rest, i, st =>
    let gate := walkGate budget today a st
    if gate.1 then
      let upstream := fetches i
      let res := executeProviderAttempt a upstream
      if res.ok then
        { trace := [execEntry a upstream], selected := some (i, a, res.results)
          missState := gate.2, executed := [i] }
      else
        let r := runWalkGo fetches budget today rest (i + 1) gate.2
        { trace := execEntry a upstream :: r.trace, selected := r.selected
          missState := r.missState, executed := i :: r.executed }
    else
      let r := runWalkGo fetches budget today rest (i + 1) gate.2
      { trace := skipEntry a :: r.trace, selected := r.selected
        missState := r.missState, executed := r.executed }

/-- The attempt walk over a full plan. -/
def runWalk (attempts : List ProviderAttempt) (fetches : Nat → UpstreamFetch)
    (budget : Nat) (today : String) (st : MissState) : WalkResult :=
  runWalkGo fetches budget today attempts 0 st

/-- The cache tier chosen for the response: `private, no-store`, the
long-TTL `CDN-Cache-Control` of `setServerCdnCache`, or the 60-second
`setServerShortCdnCache` used on all-attempts-failed responses. -/
inductive CacheDecision where
  | noStore
  | serverCdn
  | serverShortCdn
deriving Repr, DecidableEq

/-- Outcome of the GET handler from the point where the query has been
validated and the rate limiter has admitted the request. -/
inductive GetResponse where
  | errNoKeys
  | errNoRoute
  | failure (trace : List TraceEntry) (cache : CacheDecision) (st : MissState)
  | success (winner : Nat × ProviderAttempt × List ProviderRawResult)
      (trace : List TraceEntry) (cache : CacheDecision) (st : MissState)
deriving DecidableEq

/-- Embedding of the core of the GET handler in src/unnamed/part_012 after
input validation and rate limiting: credential check, plan construction,
the attempt walk, and the cache-tier decision, which the source derives
from `hasAnyUserProviderKey(keys)` alone. -/
def getCore (countryHint : Option String) (keys : ProviderKeys)
    (fetches : Nat → UpstreamFetch) (budget : Nat) (today : String) (st : MissState) :
    GetResponse :=
  if !hasAnyProviderKey keys then .errNoKeys
  else
    let attempts := buildProviderAttempts countryHint keys
    if attempts.isEmpty then .errNoRoute
    else
      let hasAnyUserKey := hasAnyUserProviderKey keys
      let w := runWalk attempts fetches budget today st
      match w.selected with
      | none =>
        .failure w.trace (if !hasAnyUserKey then .serverShortCdn else .noStore) w.missState
      | some winner =>
        .success winner w.trace (if hasAnyUserKey then .noStore else .serverCdn) w.missState

/-- The cache tier of a `GetResponse` (error responses use `setNoStore`). -/
def responseCache (r : GetResponse) : CacheDecision :=
  match r with
  | .errNoKeys => .noStore
  | .errNoRoute => .noStore
  | .failure _ cache _ => cache
  | .success _ _ cache _ => cache

/-! ### Reality panel (src/src/lib/providerRouter.ts, second document:
`pct`, `histogram`, `computeRealityPanel`) -/

/-- Embedding of a histogram row. -/
structure RealityHistogramRow where
  key : String
  count : Nat
  pct : ℚ
deriving Repr, DecidableEq

/-- Embedding of `pct`: `Math.round(((count / total) * 100) * 10) / 10`,
`0` when the total is not positive; `round` on non-negative rationals
agrees with `Math.round`. -/
def pct (count total : Nat) : ℚ :=
  if total ≤ 0 then 0
  else ((round (((count : ℚ) / (total : ℚ)) * 100 * 10) : ℤ) : ℚ) / 10

/-- The counting `Map` of `histogram`: JavaScript `Map` iteration order is
insertion order, so the counts list keeps first-occurrence order. -/
def bumpCount : List (String × Nat) → String → List (String × Nat)
  | [], v => [(v, 1)]
  | (k, n) :: rest, v =>
    if k = v then (k, n + 1) :: rest else (k, n) :: bumpCount rest v

def histogramCounts (values : List String) : List (String × Nat) :=
  values.foldl bumpCount []

/-- The sort comparator of `histogram`: count descending, ties broken by
key ascending (the embedding of `localeCompare` is the code-point
order). -/
def rowLe (a b : RealityHistogramRow) : Bool :=
  if a.count = b.count then decide (a.key ≤ b.key) else decide (b.count < a.count)

/-- Embedding of `histogram`. -/
def histogram (values : List String) (total : Nat) : List RealityHistogramRow :=
  (((histogramCounts values).map
    (fun p => { key := p.1, count := p.2, pct := pct p.2 total })) :
      List RealityHistogramRow).mergeSort rowLe

/-- The fields of a result consumed by `computeRealityPanel`. -/
structure MinimalResult where
  domain : String
  tld : String
  country_inferred : String
  lang_detected : String
deriving Repr, DecidableEq

/-- Embedding of `RealityPanel`. -/
structure RealityPanel where
  total_results : Nat
  distinct_domains : Nat
  distinct_tlds : Nat
  distinct_countries_inferred : Nat
  tld : List RealityHistogramRow
  country_inferred : List RealityHistogramRow
  lang_detected : List RealityHistogramRow
  top_domains : List RealityHistogramRow

/-- Embedding of `computeRealityPanel` (`new Set(xs).size` becomes
`xs.eraseDups.length`). -/
def computeRealityPanel (results : List MinimalResult) : RealityPanel :=
  let total := results.length
  let domains := (results.map (fun r => r.domain)).filter (fun s => s != "")
  let tlds := (results.map (fun r => r.tld)).filter (fun s => s != "")
  let countries := (results.map (fun r => r.country_inferred)).filter (fun s => s != "")
  let langs := (results.map (fun r => r.lang_detected)).filter (fun s => s != "")
  { total_results := total
    distinct_domains := domains.eraseDups.length
    distinct_tlds := tlds.eraseDups.length
    distinct_countries_inferred := ((countries.filter (fun c => c != "unknown")).eraseDups).length
    tld := histogram tlds total
    country_inferred := histogram countries total
    lang_detected := histogram langs total
    top_domains := histogram domains total }

/-- The specification-side percentage formula,
`round(count/total * 1000)/10`, `0` when the total is `0`. -/
def specPct (count total : Nat) : ℚ :=
  if total = 0 then 0
  else ((round (((count : ℚ) / (total : ℚ)) * 1000) : ℤ) : ℚ) / 10

/-- The row order of the specification: count descending, ties by key
ascending. -/
def rowOrder (a b : RealityHistogramRow) : Prop :=
  b.count < a.count ∨ (a.count = b.count ∧ a.key ≤ b.key)

/-- A concrete server-credential global attempt, used to instantiate
theorems. -/
def attemptServerSerpapi : ProviderAttempt :=
  { provider := .serpapi, key := "server-key", keySource := .server
    requestedCountry := none, resolvedCountry := none, countryParam := none
    exactCountryApplied := false, providerSupportsCountry := true
    countryResolution := .global, reason := "global_default" }

/-- A concrete user-credential global attempt, used to instantiate
theorems. -/
def attemptUserBrave : ProviderAttempt :=
  { provider := .brave, key := "user-key", keySource := .user
    requestedCountry := none, resolvedCountry := none
    countryParam := some "ALL", exactCountryApplied := false
    providerSupportsCountry := true, countryResolution := .global
    reason := "global_default" }

/-- An upstream oracle answering every attempt with HTTP success and an
unparseable body (`JSON.parse` failed, so `data` is `null`). -/
def fetchOkUnparseable : Nat → UpstreamFetch :=
  fun _ => { ok := true, status := 200, data := .null }

/-- An upstream oracle answering every attempt with a 500 status. -/
def fetchFail : Nat → UpstreamFetch :=
  fun _ => { ok := false, status := 500, data := .null }

/-- A credential configuration holding a user key for Brave and a server
key for SerpAPI only. -/
def keysMixed : ProviderKeys :=
  { user := fun p => if p = .brave then "user-key" else ""
    server := fun p => if p = .serpapi then "server-key" else "" }

/-- The winning attempt's credential source of a response, when the
response is a success. -/
def responseWinnerKeySource (r : GetResponse) : Option ProviderKeySource :=
  match r with
  | .success winner _ _ _ => some winner.2.1.keySource
  | _ => none

/-- The deduplication key of a record, when it has one: `none` when the
trimmed URL is empty (such records are always kept), otherwise
`canonicalizeUrl(raw) || raw`. -/
def dedupKey {α : Type} (url : α → LChar) (r : α) : Option LChar :=
  let raw := jsTrim (url r)
  if raw.isEmpty then none
  else some (if (canonicalizeUrl raw).isEmpty then raw else canonicalizeUrl raw)

/-! ## Theorems -/

theorem dropWhile_idem {p : α → Bool} (l : List α) :
    (l.dropWhile p).dropWhile p = l.dropWhile p := by
  induction l with
  | nil => rfl
  | cons a l ih =>
    by_cases h : p a
    · simp [List.dropWhile_cons, h, ih]
    · simp [List.dropWhile_cons, h]

theorem dropWhile_append_singleton {p : α → Bool} (a : α) (h : p a = false) (xs : List α) :
    (xs ++ [a]).dropWhile p = xs.dropWhile p ++ [a] := by
  induction xs with
  | nil => simp [List.dropWhile_cons, h]
  | cons x rest ih =>
    by_cases hx : p x
    · simp [List.dropWhile_cons, hx, ih]
    · simp [List.dropWhile_cons, hx]

theorem dropWhile_head_false {p : α → Bool} {l t : List α} {a : α}
    (h : l.dropWhile p = a :: t) : p a = false := by
  induction l with
  | nil => simp at h
  | cons x rest ih =>
    by_cases hx : p x
    · rw [List.dropWhile_cons, if_pos hx] at h
      exact ih h
    · rw [List.dropWhile_cons, if_neg hx] at h
      cases h
      simpa using hx

theorem jsTrim_idem (l : LChar) : jsTrim (jsTrim l) = jsTrim l := by
  unfold jsTrim
  rcases hA : l.dropWhile isWsChar with _ | ⟨a, t⟩
  · simp
  · have ha : isWsChar a = false := dropWhile_head_false hA
    have hB : (a :: t).reverse.dropWhile isWsChar
        = t.reverse.dropWhile isWsChar ++ [a] := by
      rw [List.reverse_cons]
      exact dropWhile_append_singleton a ha _
    rw [hB]
    rw [List.reverse_append]
    simp only [List.reverse_cons, List.reverse_nil, List.nil_append, List.singleton_append]
    rw [List.dropWhile_cons, if_neg (by simp [ha])]
    rw [show (a :: (t.reverse.dropWhile isWsChar).reverse).reverse
        = (t.reverse.dropWhile isWsChar) ++ [a] by simp]
    rw [dropWhile_append_singleton a ha _]
    rw [dropWhile_idem]
    rw [List.reverse_append]
    simp

theorem ceil_div_thousand (d : Nat) : ⌈(d : ℚ) / 1000⌉ = (((d + 999) / 1000 : Nat) : ℤ) := by
  set n : Nat := (d + 999) / 1000 with hn
  have hdm := Nat.div_add_mod (d + 999) 1000
  have hlt : (d + 999) % 1000 < 1000 := Nat.mod_lt _ (by norm_num)
  have h1 : d ≤ 1000 * n := by omega
  have h2 : 1000 * n < d + 1000 := by omega
  have hq1 : ((d : ℚ)) ≤ 1000 * (n : ℚ) := by exact_mod_cast h1
  have hq2 : (1000 : ℚ) * (n : ℚ) < (d : ℚ) + 1000 := by exact_mod_cast h2
  rw [Int.ceil_eq_iff]
  constructor
  · rw [lt_div_iff₀ (by norm_num : (0:ℚ) < 1000)]
    push_cast
    linarith
  · rw [div_le_iff₀ (by norm_num : (0:ℚ) < 1000)]
    push_cast
    linarith

theorem specRetryAfter_eq (oldest now : Nat) (h : now ≤ oldest + WINDOW_MS) :
    specRetryAfter oldest now = ((max 1 ((oldest + WINDOW_MS - now + 999) / 1000) : Nat) : ℤ) := by
  unfold specRetryAfter
  have hdeq : (oldest : ℚ) + (WINDOW_MS : ℚ) - (now : ℚ) = ((oldest + WINDOW_MS - now : Nat) : ℚ) := by
    rw [Nat.cast_sub h]
    push_cast
    ring
  rw [hdeq, ceil_div_thousand]
  rcases Nat.eq_zero_or_pos ((oldest + WINDOW_MS - now + 999) / 1000) with h0 | hpos
  · rw [h0]
    simp
  · push_cast [Nat.cast_max]
    omega

theorem PlanInv.nil (r : Nat) : PlanInv r [] := by
  refine ⟨List.Pairwise.nil, List.Pairwise.nil, ?_⟩
  intro b hb
  simp at hb

theorem PlanInv.mono {r r' : Nat} {l : List ProviderAttempt} (h : PlanInv r l) (hr : r ≤ r') :
    PlanInv r' l :=
  ⟨h.1, h.2.1, fun b hb => (h.2.2 b hb).trans hr⟩

theorem mem_pushAttempt {out : List ProviderAttempt} {a b : ProviderAttempt}
    (h : b ∈ pushAttempt out a) : b ∈ out ∨ b = a := by
  unfold pushAttempt at h
  split at h
  · exact Or.inl h
  · rcases List.mem_append.mp h with h' | h'
    · exact Or.inl h'
    · simp at h'
      exact Or.inr h'

theorem pushAttempt_inv {r : Nat} {out : List ProviderAttempt} {a : ProviderAttempt}
    (h : PlanInv r out) (ha : tierRank a.countryResolution = r) :
    PlanInv r (pushAttempt out a) := by
  obtain ⟨h1, h2, h3⟩ := h
  unfold pushAttempt
  split
  · exact ⟨h1, h2, h3⟩
  · next hany =>
    have hnot : ∀ b ∈ out, attemptSig b ≠ attemptSig a := by
      intro b hb he
      exact hany (List.any_eq_true.mpr ⟨b, hb, by simp [he]⟩)
    refine ⟨?_, ?_, ?_⟩
    · rw [List.pairwise_append]
      refine ⟨h1, by simp [attemptSigNe], ?_⟩
      intro x hx y hy
      simp at hy
      subst hy
      exact hnot x hx
    · rw [List.pairwise_append]
      refine ⟨h2, by simp, ?_⟩
      intro x hx y hy
      simp at hy
      subst hy
      rw [ha]
      exact h3 x hx
    · intro b hb
      rcases List.mem_append.mp hb with h' | h'
      · exact h3 b h'
      · simp at h'
        subst h'
        omega

theorem pushAttempt_all {P : ProviderAttempt → Prop} {out : List ProviderAttempt}
    {a : ProviderAttempt} (h : ∀ b ∈ out, P b) (ha : P a) :
    ∀ b ∈ pushAttempt out a, P b := by
  intro b hb
  rcases mem_pushAttempt hb with h' | h'
  · exact h b h'
  · exact h' ▸ ha

theorem addProviderAttempts_inv {r : Nat} {keys : ProviderKeys}
    {out : List ProviderAttempt} {provider : ProviderId}
    {requestedCountry resolvedCountry countryParam : Option String}
    {exactCountryApplied supports : Bool} {countryResolution : CountryResolutionMode}
    {reason : String} (h : PlanInv r out) (hr : tierRank countryResolution = r) :
    PlanInv r (addProviderAttempts keys out provider requestedCountry resolvedCountry
      countryParam exactCountryApplied supports countryResolution reason) := by
  unfold addProviderAttempts
  generalize keyCandidatesForProvider provider keys = cs
  induction cs generalizing out with
  | nil => exact h
  | cons c cs ih =>
    rw [List.foldl_cons]
    exact ih (pushAttempt_inv h hr)

theorem foldl_pushAttempt_all {κ : Type} {P : ProviderAttempt → Prop} (f : κ → ProviderAttempt) :
    ∀ (cs : List κ) (out : List ProviderAttempt), (∀ b ∈ out, P b) → (∀ c ∈ cs, P (f c)) →
    ∀ b ∈ cs.foldl (fun acc c => pushAttempt acc (f c)) out, P b := by
  intro cs
  induction cs with
  | nil =>
    intro out h _ b hb
    exact h b hb
  | cons c cs ih =>
    intro out h ha b hb
    rw [List.foldl_cons] at hb
    exact ih _ (pushAttempt_all h (ha c (by simp))) (fun kc hkc => ha kc (by simp [hkc])) b hb

theorem addProviderAttempts_all {P : ProviderAttempt → Prop} {keys : ProviderKeys}
    {out : List ProviderAttempt} {provider : ProviderId}
    {requestedCountry resolvedCountry countryParam : Option String}
    {exactCountryApplied supports : Bool} {countryResolution : CountryResolutionMode}
    {reason : String} (h : ∀ b ∈ out, P b)
    (ha : ∀ kc ∈ keyCandidatesForProvider provider keys, P
      { provider := provider, key := kc.1, keySource := kc.2
        requestedCountry := requestedCountry, resolvedCountry := resolvedCountry
        countryParam := countryParam, exactCountryApplied := exactCountryApplied
        providerSupportsCountry := supports, countryResolution := countryResolution
        reason := reason }) :
    ∀ b ∈ addProviderAttempts keys out provider requestedCountry resolvedCountry
      countryParam exactCountryApplied supports countryResolution reason, P b := by
  unfold addProviderAttempts
  exact foldl_pushAttempt_all
    (fun kc : String × ProviderKeySource =>
      { provider := provider, key := kc.1, keySource := kc.2
        requestedCountry := requestedCountry, resolvedCountry := resolvedCountry
        countryParam := countryParam, exactCountryApplied := exactCountryApplied
        providerSupportsCountry := supports, countryResolution := countryResolution
        reason := reason })
    _ _ h ha

theorem foldl_pres {β : Type} (I : List ProviderAttempt → Prop)
    (step : List ProviderAttempt → β → List ProviderAttempt)
    (hstep : ∀ acc b, I acc → I (step acc b)) :
    ∀ (bs : List β) (acc : List ProviderAttempt), I acc → I (bs.foldl step acc) := by
  intro bs
  induction bs with
  | nil => intro acc h; exact h
  | cons b bs ih =>
    intro acc h
    rw [List.foldl_cons]
    exact ih _ (hstep acc b h)

/-- C3: for every country hint (any string, hence in particular the
249-entry ISO universe) and every credential configuration, the planned
attempt list contains no two attempts with an identical identity key;
exact-resolution attempts precede proxy-resolution attempts, which precede
global-resolution attempts; and with a null country hint every attempt has
global resolution. -/
theorem buildProviderAttempts_plan_ok (countryHint : Option String) (keys : ProviderKeys) :
    (buildProviderAttempts countryHint keys).Pairwise attemptSigNe
    ∧ (buildProviderAttempts countryHint keys).Pairwise
        (fun x y => tierRank x.countryResolution ≤ tierRank y.countryResolution)
    ∧ (countryHint = none →
        ∀ a ∈ buildProviderAttempts countryHint keys,
          a.countryResolution = CountryResolutionMode.global) := by
  cases countryHint with
  | none =>
    have h : PlanInv 2 (buildProviderAttempts none keys)
        ∧ ∀ a ∈ buildProviderAttempts none keys,
            a.countryResolution = CountryResolutionMode.global := by
      simp only [buildProviderAttempts]
      apply foldl_pres
        (fun l => PlanInv 2 l ∧ ∀ a ∈ l, a.countryResolution = CountryResolutionMode.global)
      · intro acc p hacc
        exact ⟨addProviderAttempts_inv hacc.1 rfl,
          addProviderAttempts_all hacc.2 (fun _ _ => rfl)⟩
      · exact ⟨PlanInv.nil 2, by intro a ha; simp at ha⟩
    exact ⟨h.1.1, h.1.2.1, fun _ => h.2⟩
  | some ch =>
    have h : PlanInv 2 (buildProviderAttempts (some ch) keys) := by
      simp only [buildProviderAttempts]
      apply foldl_pres (PlanInv 2)
      · intro acc p hacc
        exact addProviderAttempts_inv hacc rfl
      · apply PlanInv.mono (r := 1) ?_ (by norm_num)
        apply foldl_pres (PlanInv 1)
        · intro acc p hacc
          split
          · exact hacc
          · split
            · exact hacc
            · exact addProviderAttempts_inv hacc rfl
        · apply PlanInv.mono (r := 0) ?_ (by norm_num)
          apply foldl_pres (PlanInv 0)
          · intro acc p hacc
            split
            · exact addProviderAttempts_inv hacc rfl
            · exact hacc
          · exact PlanInv.nil 0
    exact ⟨h.1, h.2.1, by intro hc; cases hc⟩

/-- Witness for C3 at a concrete input: with a null hint and server keys,
the plan is non-empty, all-global, and has distinct identity keys. -/
theorem buildProviderAttempts_plan_ok_witness :
    (buildProviderAttempts none keysAllServer).all
      (fun a => decide (a.countryResolution = CountryResolutionMode.global)) = true := by
  have h := (buildProviderAttempts_plan_ok none keysAllServer).2.2 rfl
  rw [List.all_eq_true]
  intro a ha
  exact decide_eq_true (h a ha)

theorem runWalkGo_nil (f : Nat → UpstreamFetch) (b : Nat) (today : String) (i : Nat)
    (st : MissState) :
    runWalkGo f b today [] i st
      = { trace := [], selected := none, missState := st, executed := [] } := rfl

theorem runWalkGo_cons_skip {f : Nat → UpstreamFetch} {b : Nat} {today : String}
    {a : ProviderAttempt} {rest : List ProviderAttempt} {i : Nat} {st : MissState}
    (h : (walkGate b today a st).1 = false) :
    runWalkGo f b today (a :: rest) i st =
      { trace := skipEntry a :: (runWalkGo f b today rest (i + 1) (walkGate b today a st).2).trace
        selected := (runWalkGo f b today rest (i + 1) (walkGate b today a st).2).selected
        missState := (runWalkGo f b today rest (i + 1) (walkGate b today a st).2).missState
        executed := (runWalkGo f b today rest (i + 1) (walkGate b today a st).2).executed } := by
  simp [runWalkGo, h]

theorem runWalkGo_cons_ok {f : Nat → UpstreamFetch} {b : Nat} {today : String}
    {a : ProviderAttempt} {rest : List ProviderAttempt} {i : Nat} {st : MissState}
    (h : (walkGate b today a st).1 = true) (hok : (f i).ok = true) :
    runWalkGo f b today (a :: rest) i st =
      { trace := [execEntry a (f i)]
        selected := some (i, a, (executeProviderAttempt a (f i)).results)
        missState := (walkGate b today a st).2, executed := [i] } := by
  simp [runWalkGo, h, executeProviderAttempt, hok]

theorem runWalkGo_cons_fail {f : Nat → UpstreamFetch} {b : Nat} {today : String}
    {a : ProviderAttempt} {rest : List ProviderAttempt} {i : Nat} {st : MissState}
    (h : (walkGate b today a st).1 = true) (hok : (f i).ok = false) :
    runWalkGo f b today (a :: rest) i st =
      { trace := execEntry a (f i)
          :: (runWalkGo f b today rest (i + 1) (walkGate b today a st).2).trace
        selected := (runWalkGo f b today rest (i + 1) (walkGate b today a st).2).selected
        missState := (runWalkGo f b today rest (i + 1) (walkGate b today a st).2).missState
        executed := i
          :: (runWalkGo f b today rest (i + 1) (walkGate b today a st).2).executed } := by
  simp [runWalkGo, h, executeProviderAttempt, hok]

theorem runWalkGo_selected_ge {f : Nat → UpstreamFetch} {b : Nat} {today : String} :
    ∀ (attempts : List ProviderAttempt) (i : Nat) (st : MissState) (k : Nat)
      (a : ProviderAttempt) (rs : List ProviderRawResult),
      (runWalkGo f b today attempts i st).selected = some (k, a, rs) → i ≤ k := by
  intro attempts
  induction attempts with
  | nil =>
    intro i st k a rs h
    rw [runWalkGo_nil] at h
    simp at h
  | cons x rest ih =>
    intro i st k a rs h
    by_cases hg : (walkGate b today x st).1 = true
    · by_cases hok : (f i).ok = true
      · rw [runWalkGo_cons_ok hg hok] at h
        simp at h
        omega
      · rw [runWalkGo_cons_fail hg (by simpa using hok)] at h
        have := ih (i + 1) (walkGate b today x st).2 k a rs h
        omega
    · rw [runWalkGo_cons_skip (by simpa using hg)] at h
      have := ih (i + 1) (walkGate b today x st).2 k a rs h
      omega

theorem runWalkGo_executed_ge {f : Nat → UpstreamFetch} {b : Nat} {today : String} :
    ∀ (attempts : List ProviderAttempt) (i : Nat) (st : MissState),
      ∀ j ∈ (runWalkGo f b today attempts i st).executed, i ≤ j := by
  intro attempts
  induction attempts with
  | nil =>
    intro i st j hj
    rw [runWalkGo_nil] at hj
    simp at hj
  | cons x rest ih =>
    intro i st j hj
    by_cases hg : (walkGate b today x st).1 = true
    · by_cases hok : (f i).ok = true
      · rw [runWalkGo_cons_ok hg hok] at hj
        simp at hj
        omega
      · rw [runWalkGo_cons_fail hg (by simpa using hok)] at hj
        simp at hj
        rcases hj with hj | hj
        · omega
        · have := ih (i + 1) (walkGate b today x st).2 j hj
          omega
    · rw [runWalkGo_cons_skip (by simpa using hg)] at hj
      have := ih (i + 1) (walkGate b today x st).2 j hj
      omega

theorem runWalkGo_selected_mem {f : Nat → UpstreamFetch} {b : Nat} {today : String} :
    ∀ (attempts : List ProviderAttempt) (i : Nat) (st : MissState) (k : Nat)
      (a : ProviderAttempt) (rs : List ProviderRawResult),
      (runWalkGo f b today attempts i st).selected = some (k, a, rs) → a ∈ attempts := by
  intro attempts
  induction attempts with
  | nil =>
    intro i st k a rs h
    rw [runWalkGo_nil] at h
    simp at h
  | cons x rest ih =>
    intro i st k a rs h
    by_cases hg : (walkGate b today x st).1 = true
    · by_cases hok : (f i).ok = true
      · rw [runWalkGo_cons_ok hg hok] at h
        simp at h
        simp [h.2.1]
      · rw [runWalkGo_cons_fail hg (by simpa using hok)] at h
        exact List.mem_cons_of_mem x (ih (i + 1) (walkGate b today x st).2 k a rs h)
    · rw [runWalkGo_cons_skip (by simpa using hg)] at h
      exact List.mem_cons_of_mem x (ih (i + 1) (walkGate b today x st).2 k a rs h)

/-- C4: once an attempt has succeeded, no later attempt in the walk is
executed: every index for which a network call was issued is at most the
index of the winning attempt. -/
theorem runWalk_no_execution_after_success (attempts : List ProviderAttempt)
    (f : Nat → UpstreamFetch) (b : Nat) (today : String) (st : MissState)
    (k : Nat) (a : ProviderAttempt) (rs : List ProviderRawResult)
    (h : (runWalk attempts f b today st).selected = some (k, a, rs)) :
    ∀ j ∈ (runWalk attempts f b today st).executed, j ≤ k := by
  unfold runWalk at h ⊢
  revert h
  have main : ∀ (l : List ProviderAttempt) (i : Nat) (st' : MissState),
      (runWalkGo f b today l i st').selected = some (k, a, rs) →
      ∀ j ∈ (runWalkGo f b today l i st').executed, j ≤ k := by
    intro l
    induction l with
    | nil =>
      intro i st' h j hj
      rw [runWalkGo_nil] at hj
      simp at hj
    | cons x rest ih =>
      intro i st' h j hj
      by_cases hg : (walkGate b today x st').1 = true
      · by_cases hok : (f i).ok = true
        · rw [runWalkGo_cons_ok hg hok] at h hj
          simp at h hj
          omega
        · rw [runWalkGo_cons_fail hg (by simpa using hok)] at h hj
          simp at hj
          rcases hj with hj | hj
          · have := runWalkGo_selected_ge rest (i + 1) (walkGate b today x st').2 k a rs h
            omega
          · exact ih (i + 1) (walkGate b today x st').2 h j hj
      · rw [runWalkGo_cons_skip (by simpa using hg)] at h hj
        exact ih (i + 1) (walkGate b today x st').2 h j hj
  exact main attempts 0 st

/-- Witness for C4 at a concrete input: with two attempts and an upstream
that succeeds immediately, the first attempt wins and only index 0 is
executed; the main theorem applies at the winning index. -/
theorem runWalk_no_execution_after_success_witness :
    (runWalk [attemptServerSerpapi, attemptUserBrave] fetchOkUnparseable 1500
      "2026-02-12" initialMissState).selected = some (0, attemptServerSerpapi, [])
    ∧ (runWalk [attemptServerSerpapi, attemptUserBrave] fetchOkUnparseable 1500
      "2026-02-12" initialMissState).executed = [0]
    ∧ (0 : Nat) ≤ 0 :=
  ⟨by decide, by decide,
    runWalk_no_execution_after_success [attemptServerSerpapi, attemptUserBrave]
      fetchOkUnparseable 1500 "2026-02-12" initialMissState 0 attemptServerSerpapi []
      (by decide) 0 (by decide)⟩

/-- C2 (amended): an attempt whose upstream returns a non-success HTTP
status or transport failure is recorded in the trace and the walk
proceeds to the next attempt; an attempt whose upstream returns a success
HTTP status terminates the walk as the success regardless of whether the
body was parseable; an unparseable body (`data = null`) on a success
status yields a success with zero results. -/
theorem runWalk_success_is_http_ok (f : Nat → UpstreamFetch) (b : Nat) (today : String)
    (a : ProviderAttempt) (rest : List ProviderAttempt) (i : Nat) (st : MissState) :
    ((walkGate b today a st).1 = true → (f i).ok = false →
      (runWalkGo f b today (a :: rest) i st).selected
          = (runWalkGo f b today rest (i + 1) (walkGate b today a st).2).selected
        ∧ (runWalkGo f b today (a :: rest) i st).trace
          = execEntry a (f i)
              :: (runWalkGo f b today rest (i + 1) (walkGate b today a st).2).trace)
    ∧ ((walkGate b today a st).1 = true → (f i).ok = true →
      (runWalkGo f b today (a :: rest) i st).selected
          = some (i, a, (executeProviderAttempt a (f i)).results)
        ∧ (runWalkGo f b today (a :: rest) i st).executed = [i])
    ∧ ((f i).ok = true → (f i).data = .null →
      (executeProviderAttempt a (f i)).results = []) := by
  refine ⟨?_, ?_, ?_⟩
  · intro hg hok
    rw [runWalkGo_cons_fail hg hok]
    exact ⟨rfl, rfl⟩
  · intro hg hok
    rw [runWalkGo_cons_ok hg hok]
    exact ⟨rfl, rfl⟩
  · intro hok hdata
    cases hp : a.provider <;>
      simp [executeProviderAttempt, hok, hdata, hp, parseBraveResults,
        parseGoogleLikeResults, asRecord, jsonGet, asArray]

/-- Counterexample for C2 as stated: an attempt whose upstream returns
HTTP 200 with an unparseable body terminates the walk as the success
(with zero results); the walk does not proceed to the next attempt. -/
theorem runWalk_unparseable_body_wins :
    (runWalk [attemptUserBrave, attemptServerSerpapi] fetchOkUnparseable 1500 "2026-02-12"
        initialMissState).selected = some (0, attemptUserBrave, [])
      ∧ (runWalk [attemptUserBrave, attemptServerSerpapi] fetchOkUnparseable 1500 "2026-02-12"
        initialMissState).executed = [0] := by
  exact ⟨by decide, by decide⟩

/-- Witness for C2 (amended) at a concrete input: a failing upstream lets
the walk proceed, and a success status with a null body yields zero
results. -/
theorem runWalk_success_is_http_ok_witness :
    (runWalkGo fetchFail 1500 "2026-02-12" [attemptUserBrave, attemptUserBrave] 0
        initialMissState).selected
      = (runWalkGo fetchFail 1500 "2026-02-12" [attemptUserBrave] 1
          (walkGate 1500 "2026-02-12" attemptUserBrave initialMissState).2).selected
    ∧ (executeProviderAttempt attemptUserBrave (fetchOkUnparseable 0)).results = [] := by
  refine ⟨?_, ?_⟩
  · exact ((runWalk_success_is_http_ok fetchFail 1500 "2026-02-12" attemptUserBrave
      [attemptUserBrave] 0 initialMissState).1 (by decide) (by decide)).1
  · exact (runWalk_success_is_http_ok fetchOkUnparseable 1500 "2026-02-12" attemptUserBrave
      [] 0 initialMissState).2.2 (by decide) rfl

theorem consume_eq (b : Nat) (today : String) (st : MissState) :
    consumeServerMissBudget b today st =
      if b ≤ (if st.date = today then st.misses else 0)
      then (false, { date := today, misses := if st.date = today then st.misses else 0 })
      else (true, { date := today, misses := (if st.date = today then st.misses else 0) + 1 }) := by
  cases st with
  | mk d m =>
    unfold consumeServerMissBudget
    by_cases hd : d = today
    · subst hd
      simp [ge_iff_le]
    · simp [hd, ge_iff_le]

theorem consume_misses_le {b : Nat} {today : String} {st : MissState}
    (h : st.misses ≤ b) : (consumeServerMissBudget b today st).2.misses ≤ b := by
  rw [consume_eq]
  by_cases hd : st.date = today <;> simp [hd] <;> split <;> simp <;> omega

theorem walkGate_misses_le {b : Nat} {today : String} {a : ProviderAttempt} {st : MissState}
    (h : st.misses ≤ b) : (walkGate b today a st).2.misses ≤ b := by
  unfold walkGate
  split
  · exact consume_misses_le h
  · exact h

theorem runWalkGo_missState_le {f : Nat → UpstreamFetch} {b : Nat} {today : String} :
    ∀ (attempts : List ProviderAttempt) (i : Nat) (st : MissState), st.misses ≤ b →
      (runWalkGo f b today attempts i st).missState.misses ≤ b := by
  intro attempts
  induction attempts with
  | nil =>
    intro i st h
    rw [runWalkGo_nil]
    exact h
  | cons x rest ih =>
    intro i st h
    by_cases hg : (walkGate b today x st).1 = true
    · by_cases hok : (f i).ok = true
      · rw [runWalkGo_cons_ok hg hok]
        exact walkGate_misses_le h
      · rw [runWalkGo_cons_fail hg (by simpa using hok)]
        exact ih (i + 1) _ (walkGate_misses_le h)
    · rw [runWalkGo_cons_skip (by simpa using hg)]
      exact ih (i + 1) _ (walkGate_misses_le h)

theorem runWalkGo_user_missState {f : Nat → UpstreamFetch} {b : Nat} {today : String} :
    ∀ (attempts : List ProviderAttempt) (i : Nat) (st : MissState),
      (∀ x ∈ attempts, x.keySource = .user) →
      (runWalkGo f b today attempts i st).missState = st := by
  intro attempts
  induction attempts with
  | nil =>
    intro i st _
    rw [runWalkGo_nil]
  | cons x rest ih =>
    intro i st hall
    have hx : x.keySource = .user := hall x (by simp)
    have hgate : walkGate b today x st = (true, st) := by
      unfold walkGate
      rw [hx]
      simp
    by_cases hok : (f i).ok = true
    · rw [runWalkGo_cons_ok (by rw [hgate]) hok, hgate]
    · rw [runWalkGo_cons_fail (by rw [hgate]) (by simpa using hok), hgate]
      exact ih (i + 1) st (fun y hy => hall y (by simp [hy]))

/-- C5: the daily miss budget is consumed only for server-credential
attempts (a walk over user-credential attempts leaves the state
untouched), resets exactly once when the observed UTC day changes (the
state after any call carries today's date, so a later same-day call does
not reset), never exceeds the configured ceiling (per call and across a
whole walk), and a server-credential attempt that finds the counter at
the ceiling is skipped without consuming a unit and without a network
call: its index is absent from the executed set and a server attempt is
executed only when the budget unit was consumed first. -/
theorem missBudget_ok (b : Nat) (today : String) (st : MissState) (f : Nat → UpstreamFetch)
    (a : ProviderAttempt) (attempts rest : List ProviderAttempt) (i : Nat) :
    (st.misses ≤ b → (consumeServerMissBudget b today st).2.misses ≤ b)
    ∧ (st.date ≠ today → consumeServerMissBudget b today st
        = consumeServerMissBudget b today { date := today, misses := 0 })
    ∧ (consumeServerMissBudget b today st).2.date = today
    ∧ (st.date = today → b ≤ st.misses → consumeServerMissBudget b today st = (false, st))
    ∧ ((∀ x ∈ attempts, x.keySource = .user) →
        (runWalkGo f b today attempts i st).missState = st)
    ∧ (a.keySource = .server → (consumeServerMissBudget b today st).1 = false →
        ((runWalkGo f b today (a :: rest) i st).executed
            = (runWalkGo f b today rest (i + 1)
                (consumeServerMissBudget b today st).2).executed
          ∧ (i ∈ (runWalkGo f b today (a :: rest) i st).executed → False)
          ∧ (runWalkGo f b today (a :: rest) i st).trace
            = skipEntry a :: (runWalkGo f b today rest (i + 1)
                (consumeServerMissBudget b today st).2).trace
          ∧ (consumeServerMissBudget b today st).2.misses
              = (if st.date = today then st.misses else 0)))
    ∧ (a.keySource = .server → i ∈ (runWalkGo f b today (a :: rest) i st).executed →
        (consumeServerMissBudget b today st).1 = true)
    ∧ (st.misses ≤ b → (runWalkGo f b today attempts i st).missState.misses ≤ b) := by
  have hgate_server : a.keySource = .server →
      walkGate b today a st = consumeServerMissBudget b today st := by
    intro hs
    unfold walkGate
    rw [hs]
    simp
  refine ⟨fun h => consume_misses_le h, ?_, ?_, ?_, ?_, ?_, ?_, ?_⟩
  · intro hne
    rw [consume_eq, consume_eq]
    simp [hne]
  · rw [consume_eq]
    by_cases hd : st.date = today <;> simp [hd] <;> split <;> simp
  · intro hdate hge
    rw [consume_eq]
    rw [if_pos (by simp [hdate]; omega)]
    cases st with
    | mk d m =>
      simp at hdate
      simp [hdate]
  · exact runWalkGo_user_missState attempts i st
  · intro hs hfalse
    have hg : (walkGate b today a st).1 = false := by rw [hgate_server hs]; exact hfalse
    have hg2 : (walkGate b today a st).2 = (consumeServerMissBudget b today st).2 := by
      rw [hgate_server hs]
    refine ⟨?_, ?_, ?_, ?_⟩
    · rw [runWalkGo_cons_skip hg, hg2]
    · intro hmem
      rw [runWalkGo_cons_skip hg] at hmem
      have := runWalkGo_executed_ge rest (i + 1) (walkGate b today a st).2 i hmem
      omega
    · rw [runWalkGo_cons_skip hg, hg2]
    · rw [consume_eq] at hfalse ⊢
      revert hfalse
      by_cases hd : st.date = today <;> simp [hd] <;> split <;> simp
  · intro hs hmem
    by_cases hc : (consumeServerMissBudget b today st).1 = true
    · exact hc
    · have hg : (walkGate b today a st).1 = false := by
        rw [hgate_server hs]
        simpa using hc
      rw [runWalkGo_cons_skip hg] at hmem
      have := runWalkGo_executed_ge rest (i + 1) (walkGate b today a st).2 i hmem
      omega
  · exact runWalkGo_missState_le attempts i st

/-- Witness for C5 at a concrete input: a day change resets the counter,
a counter at the ceiling refuses without consuming, and a user-only walk
leaves the state untouched. -/
theorem missBudget_ok_witness :
    consumeServerMissBudget 1500 "2026-02-12" { date := "2026-02-11", misses := 99 }
        = consumeServerMissBudget 1500 "2026-02-12" { date := "2026-02-12", misses := 0 }
      ∧ consumeServerMissBudget 1500 "2026-02-12" { date := "2026-02-12", misses := 1500 }
        = (false, { date := "2026-02-12", misses := 1500 })
      ∧ (runWalkGo fetchFail 1500 "2026-02-12" [attemptUserBrave] 0
          { date := "2026-02-12", misses := 7 }).missState
        = { date := "2026-02-12", misses := 7 } := by
  refine ⟨?_, ?_, ?_⟩
  · exact (missBudget_ok 1500 "2026-02-12" { date := "2026-02-11", misses := 99 } fetchFail
      attemptUserBrave [] [] 0).2.1 (by decide)
  · exact (missBudget_ok 1500 "2026-02-12" { date := "2026-02-12", misses := 1500 } fetchFail
      attemptUserBrave [] [] 0).2.2.2.1 rfl (by norm_num)
  · exact (missBudget_ok 1500 "2026-02-12" { date := "2026-02-12", misses := 7 } fetchFail
      attemptUserBrave [attemptUserBrave] [] 0).2.2.2.2.1 (by decide)

theorem keyCandidates_server_only {keys : ProviderKeys} {p : ProviderId}
    (h : hasAnyUserProviderKey keys = false) :
    ∀ kc ∈ keyCandidatesForProvider p keys, kc.2 = ProviderKeySource.server := by
  intro kc hkc
  unfold hasAnyUserProviderKey at h
  simp at h
  obtain ⟨hb, hsp, hsa⟩ := h
  have huser : strTrim (keys.user p) = "" := by
    cases p
    · exact hb
    · exact hsp
    · exact hsa
  unfold keyCandidatesForProvider at hkc
  rw [huser] at hkc
  simp at hkc
  rw [hkc.2]

theorem buildProviderAttempts_server_only (countryHint : Option String) (keys : ProviderKeys)
    (h : hasAnyUserProviderKey keys = false) :
    ∀ a ∈ buildProviderAttempts countryHint keys, a.keySource = ProviderKeySource.server := by
  cases countryHint with
  | none =>
    simp only [buildProviderAttempts]
    apply foldl_pres (fun l => ∀ a ∈ l, a.keySource = ProviderKeySource.server)
    · intro acc p hacc
      exact addProviderAttempts_all hacc (fun kc hkc => keyCandidates_server_only h kc hkc)
    · simp
  | some ch =>
    simp only [buildProviderAttempts]
    apply foldl_pres (fun l => ∀ a ∈ l, a.keySource = ProviderKeySource.server)
    · intro acc p hacc
      exact addProviderAttempts_all hacc (fun kc hkc => keyCandidates_server_only h kc hkc)
    · apply foldl_pres (fun l => ∀ a ∈ l, a.keySource = ProviderKeySource.server)
      · intro acc p hacc
        split
        · exact hacc
        · split
          · exact hacc
          · exact addProviderAttempts_all hacc
              (fun kc hkc => keyCandidates_server_only h kc hkc)
      · apply foldl_pres (fun l => ∀ a ∈ l, a.keySource = ProviderKeySource.server)
        · intro acc p hacc
          split
          · exact addProviderAttempts_all hacc
              (fun kc hkc => keyCandidates_server_only h kc hkc)
          · exact hacc
        · simp

/-- C1 (amended): the response is cacheable (CDN cache mode rather than
no-store) iff no user-supplied credential was present on the request: a
success response gets the CDN cache tier exactly when the request carried
no user key; a winning attempt with a user credential therefore never
produces a cacheable response; and when no user credential is present
the winning attempt necessarily used a server credential and the
response is cacheable. -/
theorem getCore_cache_ok (countryHint : Option String) (keys : ProviderKeys)
    (f : Nat → UpstreamFetch) (b : Nat) (today : String) (st : MissState) :
    (responseCache (getCore countryHint keys f b today st) = CacheDecision.serverCdn →
        hasAnyUserProviderKey keys = false)
    ∧ (∀ w t c st', getCore countryHint keys f b today st = .success w t c st' →
        ((c = CacheDecision.serverCdn ↔ hasAnyUserProviderKey keys = false)
          ∧ (w.2.1.keySource = ProviderKeySource.user → c = CacheDecision.noStore)
          ∧ (hasAnyUserProviderKey keys = false →
              w.2.1.keySource = ProviderKeySource.server ∧ c = CacheDecision.serverCdn))) := by
  unfold getCore
  by_cases hk : hasAnyProviderKey keys = true
  · simp only [hk]
    by_cases hempty : (buildProviderAttempts countryHint keys).isEmpty = true
    · simp [hempty, responseCache]
    · simp only [hempty, Bool.not_true, Bool.false_eq_true, if_false, if_true,
        Bool.not_false]
      rcases hsel : (runWalk (buildProviderAttempts countryHint keys) f b today st).selected
        with _ | ⟨k, a, rs⟩
      · simp only [hsel, responseCache]
        constructor
        · split <;> simp [responseCache]
        · intro w t c st' hcontra
          split at hcontra <;> cases hcontra
      · simp only [hsel]
        constructor
        · intro hcache
          by_cases hu : hasAnyUserProviderKey keys = true
          · simp [responseCache, hu] at hcache
          · simpa using hu
        · intro w t c st' heq
          have hw : w = (k, a, rs) := by
            by_cases hu : hasAnyUserProviderKey keys = true <;> simp [hu] at heq <;>
              exact heq.1.symm
          have hc : c = (if hasAnyUserProviderKey keys then CacheDecision.noStore
              else CacheDecision.serverCdn) := by
            by_cases hu : hasAnyUserProviderKey keys = true <;> simp [hu] at heq ⊢ <;>
              exact heq.2.2.1.symm
          have hmem : a ∈ buildProviderAttempts countryHint keys :=
            runWalkGo_selected_mem _ 0 st k a rs hsel
          subst hw
          refine ⟨?_, ?_, ?_⟩
          · constructor
            · intro hcdn
              by_cases hu : hasAnyUserProviderKey keys = true
              · rw [hc] at hcdn
                simp [hu] at hcdn
              · simpa using hu
            · intro hu
              rw [hc, hu]
              simp
          · intro huser
            by_cases hu : hasAnyUserProviderKey keys = true
            · rw [hc]
              simp [hu]
            · have := buildProviderAttempts_server_only countryHint keys (by simpa using hu)
                a hmem
              simp at huser
              rw [this] at huser
              cases huser
          · intro hu
            refine ⟨buildProviderAttempts_server_only countryHint keys hu a hmem, ?_⟩
            rw [hc, hu]
            simp
  · simp only [hk]
    simp at hk
    simp [hk, responseCache]

/-- Counterexample for C1 as stated: a request carrying a user key for
one provider and a server key for another wins with the server
credential, yet the response is marked no-store, not cacheable. -/
theorem getCore_server_win_not_cacheable :
    responseWinnerKeySource (getCore none keysMixed fetchOkUnparseable 1500 "2026-02-12"
        initialMissState) = some ProviderKeySource.server
      ∧ responseCache (getCore none keysMixed fetchOkUnparseable 1500 "2026-02-12"
        initialMissState) = CacheDecision.noStore := by
  exact ⟨by decide, by decide⟩

/-- Witness for C1 (amended) at a concrete input: with only server keys,
the walk wins with a server credential and the response gets the CDN
cache tier. -/
theorem getCore_cache_ok_witness :
    responseCache (getCore none keysAllServer fetchOkUnparseable 1500 "2026-02-12"
        initialMissState) = CacheDecision.serverCdn
      ∧ responseWinnerKeySource (getCore none keysAllServer fetchOkUnparseable 1500 "2026-02-12"
        initialMissState) = some ProviderKeySource.server := by
  have heq : getCore none keysAllServer fetchOkUnparseable 1500 "2026-02-12" initialMissState
      = GetResponse.success (0, attemptServerSerpapi, [])
          [execEntry attemptServerSerpapi (fetchOkUnparseable 0)] CacheDecision.serverCdn
          { date := "2026-02-12", misses := 1 } := by decide
  have h := (getCore_cache_ok none keysAllServer fetchOkUnparseable 1500 "2026-02-12"
    initialMissState).2 _ _ _ _ heq
  have h3 := h.2.2 (by decide)
  constructor
  · rw [heq]
    exact h3.2
  · rw [heq]
    simp only [responseWinnerKeySource]
    rw [h3.1]

theorem dropWhile_eq_self_of_all {p : α → Bool} {l : List α}
    (h : ∀ c ∈ l, p c = false) : l.dropWhile p = l := by
  cases l with
  | nil => rfl
  | cons a t =>
    rw [List.dropWhile_cons, if_neg (by simp [h a (by simp)])]

theorem filter_not_dropWhile {p : α → Bool} (l : List α) :
    (l.dropWhile p).filter (fun a => !p a) = l.filter (fun a => !p a) := by
  induction l with
  | nil => rfl
  | cons a t ih =>
    by_cases hp : p a
    · rw [List.dropWhile_cons, if_pos hp, List.filter_cons, if_neg (by simp [hp])]
      exact ih
    · rw [List.dropWhile_cons, if_neg hp]

theorem runCalls_admits (lo hi : Nat) (hwin : hi ≤ lo + WINDOW_MS) :
    ∀ (ts : List Nat) (acc : List Nat),
      acc.length + ts.length ≤ LIMIT →
      (∀ x ∈ acc, lo ≤ x ∧ x ≤ hi) →
      (∀ x ∈ ts, lo ≤ x ∧ x ≤ hi) →
      (runCalls acc ts).1 = acc ++ ts
        ∧ (runCalls acc ts).2.all (fun o => o.allowed) = true := by
  intro ts
  induction ts with
  | nil =>
    intro acc _ _ _
    simp [runCalls]
  | cons t rest ih =>
    intro acc hlen hacc hts
    have hpruned : acc.dropWhile (fun x => decide (x < t - WINDOW_MS)) = acc := by
      apply dropWhile_eq_self_of_all
      intro c hc
      have h1 := (hacc c hc).1
      have h2 := (hts t (by simp)).2
      simp only [decide_eq_false_iff_not]
      omega
    have hlt : acc.length < LIMIT := by
      simp at hlen
      omega
    have hstep : rateLimit acc t
        = { times := acc ++ [t], allowed := true, retryAfterSeconds := 0 } := by
      simp only [rateLimit]
      rw [hpruned, if_neg (by omega)]
    have ihres := ih (acc ++ [t]) (by simp at hlen ⊢; omega)
      (by
        intro y hy
        rcases List.mem_append.mp hy with hy | hy
        · exact hacc y hy
        · simp at hy
          subst hy
          exact hts _ (by simp))
      (fun y hy => hts y (by simp [hy]))
    have key : runCalls acc (t :: rest)
        = ((runCalls (acc ++ [t]) rest).1,
           { times := acc ++ [t], allowed := true, retryAfterSeconds := 0 }
             :: (runCalls (acc ++ [t]) rest).2) := by
      simp only [runCalls, hstep]
    rw [key]
    constructor
    · rw [ihres.1]
      simp
    · simp [ihres.2]

/-- C6: starting from an empty bucket, 30 requests within the window are
all admitted; the 31st request within the window is rejected with
`retryAfterSeconds = ceil((oldest + W - now)/1000)` clamped to at least 1
(stated by equality with the exact rational formula `specRetryAfter`) and
leaves the stored timestamps unchanged; and once the window has elapsed
past the oldest recorded timestamp, a subsequent request is admitted
again. -/
theorem rateLimit_window_ok (t1 : Nat) (rest : List Nat) (t31 : Nat)
    (hlen : (t1 :: rest).length = LIMIT)
    (hmono : ∀ x ∈ rest, t1 ≤ x)
    (hub : ∀ x ∈ t1 :: rest, x ≤ t31)
    (hwin : t31 ≤ t1 + WINDOW_MS) :
    ((runCalls [] (t1 :: rest)).1 = t1 :: rest
        ∧ (runCalls [] (t1 :: rest)).2.all (fun o => o.allowed) = true)
    ∧ (rateLimit (t1 :: rest) t31).allowed = false
    ∧ ((rateLimit (t1 :: rest) t31).retryAfterSeconds : ℤ) = specRetryAfter t1 t31
    ∧ (rateLimit (t1 :: rest) t31).times = t1 :: rest
    ∧ (∀ now, t1 + WINDOW_MS < now → (rateLimit (t1 :: rest) now).allowed = true) := by
  have hpruned : (t1 :: rest).dropWhile (fun x => decide (x < t31 - WINDOW_MS))
      = t1 :: rest := by
    rw [List.dropWhile_cons, if_neg (by simp only [decide_eq_true_eq]; omega)]
  have hrej : rateLimit (t1 :: rest) t31
      = { times := t1 :: rest, allowed := false
          retryAfterSeconds := max 1 ((t1 + WINDOW_MS - t31 + 999) / 1000) } := by
    simp only [rateLimit]
    rw [hpruned]
    rw [if_pos (by simp [LIMIT] at hlen ⊢; omega)]
    simp
  refine ⟨?_, ?_, ?_, ?_, ?_⟩
  · have := runCalls_admits t1 t31 hwin (t1 :: rest) [] (by simp [hlen])
      (by simp)
      (by
        intro x hx
        refine ⟨?_, hub x hx⟩
        rcases List.mem_cons.mp hx with hx | hx
        · omega
        · exact hmono x hx)
    simpa using this
  · rw [hrej]
  · rw [hrej]
    exact (specRetryAfter_eq t1 t31 hwin).symm
  · rw [hrej]
  · intro now hnow
    have hhead : (decide (t1 < now - WINDOW_MS)) = true := by
      simp only [decide_eq_true_eq]
      omega
    have hlen2 : (List.dropWhile (fun x => decide (x < now - WINDOW_MS)) rest).length
        < LIMIT := by
      have hd := (List.dropWhile_sublist
        (l := rest) (fun x => decide (x < now - WINDOW_MS))).length_le
      simp at hlen
      omega
    simp only [rateLimit]
    rw [List.dropWhile_cons, if_pos hhead, if_neg (by omega)]

/-- Witness for C6 at a concrete input: 30 requests at milliseconds
0..29 are all admitted, the 31st at millisecond 30 is rejected, and a
request one millisecond after the window has passed the oldest timestamp
is admitted. -/
theorem rateLimit_window_ok_witness :
    (rateLimit (0 :: List.range' 1 29) 30).allowed = false
      ∧ (rateLimit (0 :: List.range' 1 29) (WINDOW_MS + 1)).allowed = true
      ∧ (runCalls [] (0 :: List.range' 1 29)).2.all (fun o => o.allowed) = true := by
  have h := rateLimit_window_ok 0 (List.range' 1 29) 30 (by decide)
    (by decide) (by decide) (by decide)
  exact ⟨h.2.1, h.2.2.2.2 (WINDOW_MS + 1) (by decide), h.1.2⟩

/-- C10: a rejected rate-limiter call appends no timestamp: the stored
bucket is exactly the pruned list, the in-window timestamps are unchanged
by the call, and repeating the rejected call yields the identical bucket
and the identical retry-after, so rejected requests never extend the
lockout. -/
theorem rateLimit_reject_pure (times : List Nat) (now : Nat)
    (h : (rateLimit times now).allowed = false) :
    (rateLimit times now).times
        = times.dropWhile (fun t => decide (t < now - WINDOW_MS))
    ∧ (rateLimit times now).times.filter (fun t => !decide (t < now - WINDOW_MS))
        = times.filter (fun t => !decide (t < now - WINDOW_MS))
    ∧ rateLimit ((rateLimit times now).times) now = rateLimit times now := by
  have hge : (times.dropWhile (fun t => decide (t < now - WINDOW_MS))).length ≥ LIMIT := by
    by_contra hc
    simp only [rateLimit] at h
    rw [if_neg hc] at h
    simp at h
  have hrl : rateLimit times now
      = { times := times.dropWhile (fun t => decide (t < now - WINDOW_MS))
          allowed := false
          retryAfterSeconds := max 1
            (((times.dropWhile (fun t => decide (t < now - WINDOW_MS))).head?.getD now
              + WINDOW_MS - now + 999) / 1000) } := by
    simp only [rateLimit]
    rw [if_pos hge]
  refine ⟨by rw [hrl], ?_, ?_⟩
  · rw [hrl]
    exact filter_not_dropWhile times
  · rw [hrl]
    conv_lhs => simp only [rateLimit]
    rw [dropWhile_idem]
    rw [if_pos hge]

/-- Witness for C10 at a concrete input: repeating a rejected call at the
same instant returns the identical outcome. -/
theorem rateLimit_reject_pure_witness :
    rateLimit ((rateLimit (0 :: List.range' 1 29) 30).times) 30
      = rateLimit (0 :: List.range' 1 29) 30 := by
  exact (rateLimit_reject_pure (0 :: List.range' 1 29) 30 (by decide)).2.2

theorem rowLe_iff (a b : RealityHistogramRow) : rowLe a b = true ↔ rowOrder a b := by
  unfold rowLe rowOrder
  by_cases hc : a.count = b.count
  · simp [hc]
  · simp [hc]

theorem rowLe_trans (a b c : RealityHistogramRow) :
    rowLe a b = true → rowLe b c = true → rowLe a c = true := by
  unfold rowLe
  intro h1 h2
  by_cases hab : a.count = b.count
  · rw [if_pos hab] at h1
    by_cases hbc : b.count = c.count
    · rw [if_pos hbc] at h2
      rw [if_pos (hab.trans hbc)]
      exact decide_eq_true (le_trans (of_decide_eq_true h1) (of_decide_eq_true h2))
    · rw [if_neg hbc] at h2
      have hc := of_decide_eq_true h2
      rw [if_neg (by omega)]
      exact decide_eq_true (by omega)
  · rw [if_neg hab] at h1
    have hb := of_decide_eq_true h1
    by_cases hbc : b.count = c.count
    · rw [if_pos hbc] at h2
      rw [if_neg (by omega)]
      exact decide_eq_true (by omega)
    · rw [if_neg hbc] at h2
      have hc := of_decide_eq_true h2
      rw [if_neg (by omega)]
      exact decide_eq_true (by omega)

theorem rowLe_total (a b : RealityHistogramRow) : rowLe a b || rowLe b a := by
  unfold rowLe
  by_cases hab : a.count = b.count
  · rw [if_pos hab, if_pos hab.symm]
    rcases le_total a.key b.key with h | h
    · rw [decide_eq_true h]
      simp
    · rw [decide_eq_true h]
      simp
  · rw [if_neg hab, if_neg (fun h => hab h.symm)]
    rcases Nat.lt_or_ge a.count b.count with h | h
    · rw [decide_eq_true h]
      simp
    · have hlt : b.count < a.count := by omega
      rw [decide_eq_true hlt]
      simp

theorem pct_eq_specPct (c t : Nat) : pct c t = specPct c t := by
  unfold pct specPct
  by_cases ht : t = 0
  · simp [ht]
  · rw [if_neg (by omega), if_neg ht]
    rw [show ((c : ℚ) / (t : ℚ)) * 100 * 10 = ((c : ℚ) / (t : ℚ)) * 1000 by ring]

theorem histogram_ok (values : List String) (total : Nat) :
    (histogram values total).Pairwise rowOrder
      ∧ ∀ row ∈ histogram values total, row.pct = specPct row.count total := by
  constructor
  · have hs := @List.sorted_mergeSort _ rowLe rowLe_trans rowLe_total
      ((histogramCounts values).map
        (fun p => { key := p.1, count := p.2, pct := pct p.2 total }))
    exact hs.imp (fun h => (rowLe_iff _ _).mp h)
  · intro row hrow
    unfold histogram at hrow
    rw [List.mem_mergeSort] at hrow
    obtain ⟨p, _, hp⟩ := List.mem_map.mp hrow
    rw [← hp]
    exact pct_eq_specPct p.2 total

/-- C9: every histogram of the stats aggregator is sorted by count
descending with ties broken by key ascending, and every row's percentage
equals `round(count/total * 1000)/10` with percentage 0 when the total
is 0. -/
theorem computeRealityPanel_ok (results : List MinimalResult) :
    ((computeRealityPanel results).tld.Pairwise rowOrder
      ∧ ∀ row ∈ (computeRealityPanel results).tld,
          row.pct = specPct row.count results.length)
    ∧ ((computeRealityPanel results).country_inferred.Pairwise rowOrder
      ∧ ∀ row ∈ (computeRealityPanel results).country_inferred,
          row.pct = specPct row.count results.length)
    ∧ ((computeRealityPanel results).lang_detected.Pairwise rowOrder
      ∧ ∀ row ∈ (computeRealityPanel results).lang_detected,
          row.pct = specPct row.count results.length)
    ∧ ((computeRealityPanel results).top_domains.Pairwise rowOrder
      ∧ ∀ row ∈ (computeRealityPanel results).top_domains,
          row.pct = specPct row.count results.length) := by
  simp only [computeRealityPanel]
  exact ⟨histogram_ok _ _, histogram_ok _ _, histogram_ok _ _, histogram_ok _ _⟩

/-- Witness for C9 at a concrete input: three results, two sharing a TLD;
every TLD row's percentage matches the specification formula and the row
list is sorted. -/
theorem computeRealityPanel_ok_witness :
    ((computeRealityPanel
        [{ domain := "a.com", tld := "com", country_inferred := "US", lang_detected := "en" },
         { domain := "b.org", tld := "org", country_inferred := "DE", lang_detected := "de" },
         { domain := "c.com", tld := "com", country_inferred := "US", lang_detected := "en" }]).tld.all
      (fun row => decide (row.pct = specPct row.count 3))) = true := by
  have h := (computeRealityPanel_ok
    [{ domain := "a.com", tld := "com", country_inferred := "US", lang_detected := "en" },
     { domain := "b.org", tld := "org", country_inferred := "DE", lang_detected := "de" },
     { domain := "c.com", tld := "com", country_inferred := "US", lang_detected := "en" }]).1.2
  rw [List.all_eq_true]
  intro row hrow
  exact decide_eq_true (h row hrow)

theorem dedupGo_cons_empty {α : Type} {url : α → LChar} {seen : List LChar} {r : α}
    {rest : List α} (h : (jsTrim (url r)).isEmpty = true) :
    dedupGo url seen (r :: rest) = r :: dedupGo url seen rest := by
  simp [dedupGo, h]

theorem dedupKey_some {α : Type} {url : α → LChar} {r : α} {k : LChar}
    (hk : dedupKey url r = some k) :
    (jsTrim (url r)).isEmpty = false
      ∧ k = (if (canonicalizeUrl (jsTrim (url r))).isEmpty then jsTrim (url r)
             else canonicalizeUrl (jsTrim (url r))) := by
  unfold dedupKey at hk
  by_cases he : (jsTrim (url r)).isEmpty = true
  · rw [if_pos he] at hk
    cases hk
  · rw [if_neg he] at hk
    exact ⟨by simpa using he, (Option.some.inj hk).symm⟩

theorem dedupGo_cons_mem {α : Type} {url : α → LChar} {seen : List LChar} {r : α}
    {rest : List α} {k : LChar} (hk : dedupKey url r = some k) (hmem : k ∈ seen) :
    dedupGo url seen (r :: rest) = dedupGo url seen rest := by
  obtain ⟨he, hkey⟩ := dedupKey_some hk
  simp only [dedupGo, he, Bool.false_eq_true, if_false]
  rw [if_pos (by rw [hkey] at hmem; exact decide_eq_true hmem)]

theorem dedupGo_cons_new {α : Type} {url : α → LChar} {seen : List LChar} {r : α}
    {rest : List α} {k : LChar} (hk : dedupKey url r = some k) (hmem : k ∉ seen) :
    dedupGo url seen (r :: rest) = r :: dedupGo url (k :: seen) rest := by
  obtain ⟨he, hkey⟩ := dedupKey_some hk
  simp only [dedupGo, he, Bool.false_eq_true, if_false]
  rw [if_neg (by rw [← hkey]; simp [hmem])]
  rw [← hkey]

theorem dedupKey_cases {α : Type} (url : α → LChar) (r : α) :
    dedupKey url r = none ∨ ∃ k, dedupKey url r = some k := by
  cases dedupKey url r with
  | none => exact Or.inl rfl
  | some k => exact Or.inr ⟨k, rfl⟩

theorem dedupKey_none {α : Type} {url : α → LChar} {r : α}
    (h : dedupKey url r = none) : (jsTrim (url r)).isEmpty = true := by
  unfold dedupKey at h
  by_cases he : (jsTrim (url r)).isEmpty
  · exact he
  · simp [he] at h

theorem dedupGo_sublist {α : Type} (url : α → LChar) :
    ∀ (l : List α) (seen : List LChar), (dedupGo url seen l).Sublist l := by
  intro l
  induction l with
  | nil =>
    intro seen
    exact List.Sublist.refl []
  | cons r rest ih =>
    intro seen
    rcases dedupKey_cases url r with hn | ⟨k, hk⟩
    · rw [dedupGo_cons_empty (dedupKey_none hn)]
      exact (ih seen).cons₂ r
    · by_cases hmem : k ∈ seen
      · rw [dedupGo_cons_mem hk hmem]
        exact (ih seen).cons r
      · rw [dedupGo_cons_new hk hmem]
        exact (ih (k :: seen)).cons₂ r

theorem dedupGo_filter_empty {α : Type} (url : α → LChar) :
    ∀ (l : List α) (seen : List LChar),
      (dedupGo url seen l).filter (fun r => (jsTrim (url r)).isEmpty)
        = l.filter (fun r => (jsTrim (url r)).isEmpty) := by
  intro l
  induction l with
  | nil =>
    intro seen
    rfl
  | cons r rest ih =>
    intro seen
    rcases dedupKey_cases url r with hn | ⟨k, hk⟩
    · rw [dedupGo_cons_empty (dedupKey_none hn)]
      rw [List.filter_cons, List.filter_cons]
      rw [if_pos (by simp [dedupKey_none hn]), if_pos (by simp [dedupKey_none hn])]
      rw [ih seen]
    · have he := (dedupKey_some hk).1
      by_cases hmem : k ∈ seen
      · rw [dedupGo_cons_mem hk hmem]
        rw [List.filter_cons, if_neg (by simp [he])]
        exact ih seen
      · rw [dedupGo_cons_new hk hmem]
        rw [List.filter_cons, List.filter_cons]
        rw [if_neg (by simp [he]), if_neg (by simp [he])]
        exact ih (k :: seen)

theorem dedupGo_keys_not_seen {α : Type} (url : α → LChar) :
    ∀ (l : List α) (seen : List LChar) (r : α), r ∈ dedupGo url seen l →
      ∀ k, dedupKey url r = some k → k ∉ seen := by
  intro l
  induction l with
  | nil =>
    intro seen r hr
    simp [dedupGo] at hr
  | cons x rest ih =>
    intro seen r hr k hk
    rcases dedupKey_cases url x with hn | ⟨kx, hkx⟩
    · rw [dedupGo_cons_empty (dedupKey_none hn)] at hr
      rcases List.mem_cons.mp hr with hr | hr
      · subst hr
        rw [hk] at hn
        cases hn
      · exact ih seen r hr k hk
    · by_cases hmem : kx ∈ seen
      · rw [dedupGo_cons_mem hkx hmem] at hr
        exact ih seen r hr k hk
      · rw [dedupGo_cons_new hkx hmem] at hr
        rcases List.mem_cons.mp hr with hr | hr
        · subst hr
          rw [hk] at hkx
          injection hkx with hkk
          subst hkk
          exact hmem
        · intro hks
          exact ih (kx :: seen) r hr k hk (by simp [hks])

theorem dedupGo_pairwise_keys {α : Type} (url : α → LChar) :
    ∀ (l : List α) (seen : List LChar),
      (dedupGo url seen l).Pairwise (fun r s => ∀ k k', dedupKey url r = some k →
        dedupKey url s = some k' → k ≠ k') := by
  intro l
  induction l with
  | nil =>
    intro seen
    simp [dedupGo]
  | cons x rest ih =>
    intro seen
    rcases dedupKey_cases url x with hn | ⟨kx, hkx⟩
    · rw [dedupGo_cons_empty (dedupKey_none hn)]
      refine List.Pairwise.cons ?_ (ih seen)
      intro s hs k k' hx
      rw [hn] at hx
      cases hx
    · by_cases hmem : kx ∈ seen
      · rw [dedupGo_cons_mem hkx hmem]
        exact ih seen
      · rw [dedupGo_cons_new hkx hmem]
        refine List.Pairwise.cons ?_ (ih (kx :: seen))
        intro s hs k k' hx hs'
        rw [hkx] at hx
        injection hx with hkk
        subst hkk
        have := dedupGo_keys_not_seen url rest (kx :: seen) s hs k' hs'
        intro he
        subst he
        exact this (by simp)

theorem dedupGo_eq_self {α : Type} (url : α → LChar) :
    ∀ (l : List α) (seen : List LChar),
      (∀ r ∈ l, ∀ k, dedupKey url r = some k → k ∉ seen) →
      l.Pairwise (fun r s => ∀ k k', dedupKey url r = some k →
        dedupKey url s = some k' → k ≠ k') →
      dedupGo url seen l = l := by
  intro l
  induction l with
  | nil =>
    intro seen _ _
    rfl
  | cons x rest ih =>
    intro seen hseen hpw
    rcases dedupKey_cases url x with hn | ⟨kx, hkx⟩
    · rw [dedupGo_cons_empty (dedupKey_none hn)]
      rw [ih seen (fun r hr => hseen r (by simp [hr])) (List.Pairwise.sublist
        (List.sublist_cons_self x rest) hpw)]
    · have hnot : kx ∉ seen := hseen x (by simp) kx hkx
      rw [dedupGo_cons_new hkx hnot]
      rw [ih (kx :: seen) ?_ (List.Pairwise.sublist (List.sublist_cons_self x rest) hpw)]
      intro r hr k hk
      intro hks
      rcases List.mem_cons.mp hks with hks | hks
      · subst hks
        exact (List.pairwise_cons.mp hpw).1 r hr k k hkx hk rfl
      · exact hseen r (by simp [hr]) k hk hks

/-- C7: dedup is idempotent; the output preserves the relative order of
the input (it is a sublist of the input); and a result whose URL is empty
after trimming is never treated as a duplicate key and is always kept
(the empty-URL sublist of the output equals that of the input, with
multiplicity). -/
theorem dedupByCanonicalUrl_ok {α : Type} (url : α → LChar) (xs : List α) :
    dedupByCanonicalUrl url (dedupByCanonicalUrl url xs) = dedupByCanonicalUrl url xs
    ∧ (dedupByCanonicalUrl url xs).Sublist xs
    ∧ (dedupByCanonicalUrl url xs).filter (fun r => (jsTrim (url r)).isEmpty)
        = xs.filter (fun r => (jsTrim (url r)).isEmpty) := by
  refine ⟨?_, dedupGo_sublist url xs [], dedupGo_filter_empty url xs []⟩
  unfold dedupByCanonicalUrl
  exact dedupGo_eq_self url (dedupGo url [] xs) []
    (fun r _ k _ => by simp)
    (dedupGo_pairwise_keys url xs [])

theorem toNat_ofNat_valid (n : Nat) (h : n < 55296) : (Char.ofNat n).toNat = n := by
  have hv : n.isValidChar := Or.inl h
  unfold Char.ofNat
  rw [dif_pos hv]
  rfl

theorem mem_hexDigitUpper (m : Nat) : hexDigitUpper m ∈ "0123456789ABCDEF".data := by
  unfold hexDigitUpper
  unfold List.getD
  rcases h : "0123456789ABCDEF".data.get? m with _ | c
  · simp [h]
  · simpa [h] using List.get?_mem h

theorem hexDigitUpper_facts (m : Nat) :
    isWsChar (hexDigitUpper m) = false ∧ isTabNl (hexDigitUpper m) = false
      ∧ hostDelim (hexDigitUpper m) = false ∧ pathDelim (hexDigitUpper m) = false
      ∧ hexDigitUpper m ≠ '&' ∧ hexDigitUpper m ≠ '=' ∧ hexDigitUpper m ≠ '#'
      ∧ isHexDigit (hexDigitUpper m) = true := by
  have hm := mem_hexDigitUpper m
  revert hm
  generalize hexDigitUpper m = c
  intro hm
  fin_cases hm <;> exact (by decide)

theorem hexVal_hexDigitUpper {m : Nat} (h : m < 16) : hexVal (hexDigitUpper m) = m := by
  interval_cases m <;> decide

theorem isWsChar_toNat {c : Char} (h : isWsChar c = true) : c.toNat ≤ 32 := by
  unfold isWsChar at h
  simp only [Bool.or_eq_true, decide_eq_true_eq] at h
  rcases h with ((((h | h) | h) | h) | h) | h <;> subst h <;> decide

theorem isTabNl_isWsChar {c : Char} (h : isTabNl c = true) : isWsChar c = true := by
  unfold isTabNl at h
  simp only [Bool.or_eq_true, decide_eq_true_eq] at h
  rcases h with (h | h) | h <;> subst h <;> decide

theorem isWsChar_false_isTabNl {c : Char} (h : isWsChar c = false) : isTabNl c = false := by
  cases ht : isTabNl c
  · rfl
  · rw [isTabNl_isWsChar ht] at h
    cases h

theorem hostDelim_toNat {c : Char} (h : hostDelim c = true) :
    c.toNat = 47 ∨ c.toNat = 63 ∨ c.toNat = 35 := by
  unfold hostDelim at h
  simp only [Bool.or_eq_true, decide_eq_true_eq] at h
  rcases h with (h | h) | h <;> subst h <;> decide

theorem char_le_toNat {a b : Char} : a ≤ b ↔ a.toNat ≤ b.toNat := Iff.rfl

theorem isAlpha_toNat {c : Char} (h : c.isAlpha = true) :
    (65 ≤ c.toNat ∧ c.toNat ≤ 90) ∨ (97 ≤ c.toNat ∧ c.toNat ≤ 122) := by
  unfold Char.isAlpha Char.isUpper Char.isLower at h
  simp only [Bool.or_eq_true, Bool.and_eq_true, decide_eq_true_eq] at h
  rcases h with ⟨h1, h2⟩ | ⟨h1, h2⟩
  · exact Or.inl ⟨h1, h2⟩
  · exact Or.inr ⟨h1, h2⟩

theorem isAlpha_not_ws {c : Char} (h : c.isAlpha = true) : isWsChar c = false := by
  cases hw : isWsChar c
  · rfl
  · have h1 := isWsChar_toNat hw
    rcases isAlpha_toNat h with ⟨h2, _⟩ | ⟨h2, _⟩ <;> omega

theorem isAlpha_not_tabnl {c : Char} (h : c.isAlpha = true) : isTabNl c = false :=
  isWsChar_false_isTabNl (isAlpha_not_ws h)

theorem toLower_toNat_cases (c : Char) :
    ((65 ≤ c.toNat ∧ c.toNat ≤ 90) ∧ (Char.toLower c).toNat = c.toNat + 32)
      ∨ (¬(65 ≤ c.toNat ∧ c.toNat ≤ 90) ∧ Char.toLower c = c) := by
  simp only [Char.toLower]
  by_cases h : 65 ≤ c.toNat ∧ c.toNat ≤ 90
  · left
    refine ⟨h, ?_⟩
    rw [if_pos ⟨h.1, h.2⟩]
    exact toNat_ofNat_valid _ (by omega)
  · right
    refine ⟨h, ?_⟩
    rw [if_neg (by intro hc; exact h ⟨hc.1, hc.2⟩)]

theorem toLower_idem (c : Char) : Char.toLower (Char.toLower c) = Char.toLower c := by
  rcases toLower_toNat_cases c with ⟨hr, heq⟩ | ⟨hr, heq⟩
  · rcases toLower_toNat_cases (Char.toLower c) with ⟨hr2, _⟩ | ⟨_, heq2⟩
    · omega
    · exact heq2
  · conv_lhs => rw [heq]

theorem lowerL_idem (l : LChar) : lowerL (lowerL l) = lowerL l := by
  unfold lowerL
  rw [List.map_map]
  apply List.map_congr_left
  intro c _
  exact toLower_idem c

theorem toLower_not_hostDelim {c : Char} (h : hostDelim c = false) :
    hostDelim (Char.toLower c) = false := by
  rcases toLower_toNat_cases c with ⟨hr, heq⟩ | ⟨_, heq⟩
  · cases hd : hostDelim (Char.toLower c)
    · rfl
    · have := hostDelim_toNat hd
      omega
  · rw [heq]
    exact h

theorem toLower_not_ws {c : Char} (h : isWsChar c = false) :
    isWsChar (Char.toLower c) = false := by
  rcases toLower_toNat_cases c with ⟨hr, heq⟩ | ⟨_, heq⟩
  · cases hd : isWsChar (Char.toLower c)
    · rfl
    · have := isWsChar_toNat hd
      omega
  · rw [heq]
    exact h

theorem ne_of_toNat_ne {c d : Char} (h : c.toNat ≠ d.toNat) : c ≠ d :=
  fun he => h (he ▸ rfl)

theorem isDigit_toNat {c : Char} (h : c.isDigit = true) :
    48 ≤ c.toNat ∧ c.toNat ≤ 57 := by
  unfold Char.isDigit at h
  simp only [Bool.and_eq_true, decide_eq_true_eq] at h
  exact ⟨h.1, h.2⟩

theorem isAlphanum_toNat {c : Char} (h : c.isAlphanum = true) :
    (48 ≤ c.toNat ∧ c.toNat ≤ 57) ∨ (65 ≤ c.toNat ∧ c.toNat ≤ 90)
      ∨ (97 ≤ c.toNat ∧ c.toNat ≤ 122) := by
  unfold Char.isAlphanum at h
  simp only [Bool.or_eq_true] at h
  rcases h with h | h
  · rcases isAlpha_toNat h with h | h
    · exact Or.inr (Or.inl h)
    · exact Or.inr (Or.inr h)
  · exact Or.inl (isDigit_toNat h)

theorem formSafe_toNat {c : Char} (h : formSafeChar c = true) :
    (48 ≤ c.toNat ∧ c.toNat ≤ 57) ∨ (65 ≤ c.toNat ∧ c.toNat ≤ 90)
      ∨ (97 ≤ c.toNat ∧ c.toNat ≤ 122) ∨ c.toNat = 42 ∨ c.toNat = 45 ∨ c.toNat = 46
      ∨ c.toNat = 95 ∨ 128 ≤ c.toNat := by
  unfold formSafeChar at h
  simp only [Bool.or_eq_true, decide_eq_true_eq] at h
  rcases h with ((((h | h) | h) | h) | h) | h
  · rcases isAlphanum_toNat h with h | h | h
    · exact Or.inl h
    · exact Or.inr (Or.inl h)
    · exact Or.inr (Or.inr (Or.inl h))
  · subst h
    right; right; right; left; rfl
  · subst h
    right; right; right; right; left; rfl
  · subst h
    right; right; right; right; right; left; rfl
  · subst h
    right; right; right; right; right; right; left; rfl
  · right; right; right; right; right; right; right; exact h

theorem formSafe_props {c : Char} (h : formSafeChar c = true) :
    isWsChar c = false ∧ isTabNl c = false ∧ c ≠ '&' ∧ c ≠ '=' ∧ c ≠ '#'
      ∧ c ≠ '+' ∧ c ≠ '%' := by
  have ht := formSafe_toNat h
  have hmin : 42 ≤ c.toNat := by omega
  have hws : isWsChar c = false := by
    cases hw : isWsChar c
    · rfl
    · have := isWsChar_toNat hw
      omega
  refine ⟨hws, isWsChar_false_isTabNl hws, ?_, ?_, ?_, ?_, ?_⟩
  · exact ne_of_toNat_ne (by rw [show ('&').toNat = 38 from rfl]; omega)
  · exact ne_of_toNat_ne (by rw [show ('=').toNat = 61 from rfl]; omega)
  · exact ne_of_toNat_ne (by rw [show ('#').toNat = 35 from rfl]; omega)
  · exact ne_of_toNat_ne (by rw [show ('+').toNat = 43 from rfl]; omega)
  · exact ne_of_toNat_ne (by rw [show ('%').toNat = 37 from rfl]; omega)

theorem not_formSafe_lt {c : Char} (h : formSafeChar c = false) : c.toNat < 128 := by
  by_contra hc
  unfold formSafeChar at h
  simp only [Bool.or_eq_false_iff, decide_eq_false_iff_not] at h
  exact h.2 (by omega)

theorem hexlist_facts : ∀ x ∈ "0123456789ABCDEF".data,
    isWsChar x = false ∧ isTabNl x = false ∧ x ≠ '&' ∧ x ≠ '=' ∧ x ≠ '#'
      ∧ hostDelim x = false ∧ pathDelim x = false := by
  decide

theorem formEncodeChar_chars (c : Char) :
    ∀ x ∈ formEncodeChar c,
      x = '+' ∨ x = '%' ∨ x ∈ "0123456789ABCDEF".data ∨ (formSafeChar x = true ∧ x = c) := by
  intro x hx
  unfold formEncodeChar at hx
  by_cases hsp : c = ' '
  · rw [if_pos hsp] at hx
    simp at hx
    exact Or.inl hx
  · rw [if_neg hsp] at hx
    by_cases hsafe : formSafeChar c = true
    · rw [if_pos hsafe] at hx
      simp at hx
      subst hx
      exact Or.inr (Or.inr (Or.inr ⟨hsafe, rfl⟩))
    · rw [if_neg hsafe] at hx
      simp at hx
      rcases hx with hx | hx | hx
      · exact Or.inr (Or.inl hx)
      · subst hx
        exact Or.inr (Or.inr (Or.inl (mem_hexDigitUpper _)))
      · subst hx
        exact Or.inr (Or.inr (Or.inl (mem_hexDigitUpper _)))

theorem formEncode_chars (l : LChar) :
    ∀ x ∈ formEncode l,
      isWsChar x = false ∧ isTabNl x = false ∧ x ≠ '&' ∧ x ≠ '=' ∧ x ≠ '#' := by
  induction l with
  | nil =>
    intro x hx
    simp [formEncode] at hx
  | cons c cs ih =>
    intro x hx
    rw [show formEncode (c :: cs) = formEncodeChar c ++ formEncode cs from rfl] at hx
    rcases List.mem_append.mp hx with hx | hx
    · rcases formEncodeChar_chars c x hx with hx | hx | hx | ⟨hsafe, _⟩
      · subst hx
        exact ⟨rfl, rfl, by decide, by decide, by decide⟩
      · subst hx
        exact ⟨rfl, rfl, by decide, by decide, by decide⟩
      · have hf := hexlist_facts x hx
        exact ⟨hf.1, hf.2.1, hf.2.2.1, hf.2.2.2.1, hf.2.2.2.2.1⟩
      · have := formSafe_props hsafe
        exact ⟨this.1, this.2.1, this.2.2.1, this.2.2.2.1, this.2.2.2.2.1⟩
    · exact ih x hx

theorem percentDecode_cons_plain {c : Char} {r : LChar} (h1 : c ≠ '+') (h2 : c ≠ '%') :
    percentDecode (c :: r) = c :: percentDecode r := by
  rw [percentDecode.eq_def]
  simp [h1, h2]

theorem percentDecode_formEncode (l : LChar) : percentDecode (formEncode l) = l := by
  induction l with
  | nil =>
    rw [show formEncode [] = [] from rfl, percentDecode.eq_def]
  | cons c cs ih =>
    rw [show formEncode (c :: cs) = formEncodeChar c ++ formEncode cs from rfl]
    unfold formEncodeChar
    by_cases hsp : c = ' '
    · rw [if_pos hsp]
      rw [List.singleton_append]
      rw [show percentDecode ('+' :: formEncode cs) = ' ' :: percentDecode (formEncode cs)
        from by rw [percentDecode.eq_def]; simp]
      rw [ih, hsp]
    · rw [if_neg hsp]
      by_cases hsafe : formSafeChar c = true
      · rw [if_pos hsafe]
        have hp := formSafe_props hsafe
        rw [List.singleton_append, percentDecode_cons_plain hp.2.2.2.2.2.1 hp.2.2.2.2.2.2, ih]
      · rw [if_neg hsafe]
        have hlt := not_formSafe_lt (by simpa using hsafe)
        have hd1 : isHexDigit (hexDigitUpper (c.toNat / 16 % 16)) = true :=
          (hexDigitUpper_facts _).2.2.2.2.2.2.2
        have hd2 : isHexDigit (hexDigitUpper (c.toNat % 16)) = true :=
          (hexDigitUpper_facts _).2.2.2.2.2.2.2
        rw [show (['%', hexDigitUpper (c.toNat / 16 % 16), hexDigitUpper (c.toNat % 16)]
            ++ formEncode cs : LChar)
          = '%' :: hexDigitUpper (c.toNat / 16 % 16) :: hexDigitUpper (c.toNat % 16)
            :: formEncode cs from rfl]
        rw [show percentDecode ('%' :: hexDigitUpper (c.toNat / 16 % 16)
            :: hexDigitUpper (c.toNat % 16) :: formEncode cs)
          = Char.ofNat (16 * hexVal (hexDigitUpper (c.toNat / 16 % 16))
              + hexVal (hexDigitUpper (c.toNat % 16))) :: percentDecode (formEncode cs)
          from by rw [percentDecode.eq_def]; simp [hd1, hd2]]
        rw [ih]
        rw [hexVal_hexDigitUpper (by omega), hexVal_hexDigitUpper (by omega)]
        rw [show 16 * (c.toNat / 16 % 16) + c.toNat % 16 = c.toNat by omega]
        rw [Char.ofNat_toNat]

theorem takeWhile_append_all {p : α → Bool} {l1 : List α} (l2 : List α)
    (h : ∀ x ∈ l1, p x = true) : (l1 ++ l2).takeWhile p = l1 ++ l2.takeWhile p := by
  induction l1 with
  | nil => simp
  | cons a t ih =>
    rw [List.cons_append, List.takeWhile_cons, if_pos (h a (by simp))]
    rw [ih (fun x hx => h x (by simp [hx]))]
    rfl

theorem dropWhile_append_all {p : α → Bool} {l1 : List α} (l2 : List α)
    (h : ∀ x ∈ l1, p x = true) : (l1 ++ l2).dropWhile p = l2.dropWhile p := by
  induction l1 with
  | nil => simp
  | cons a t ih =>
    rw [List.cons_append, List.dropWhile_cons, if_pos (h a (by simp))]
    exact ih (fun x hx => h x (by simp [hx]))

theorem splitOnChar_cons (sep c : Char) (r : LChar) :
    splitOnChar sep (c :: r)
      = (match splitOnChar sep r with
         | [] => if c = sep then [[], []] else [[c]]
         | s :: ss => if c = sep then [] :: s :: ss else (c :: s) :: ss) := rfl

theorem splitOnChar_ne_nil (sep : Char) (l : LChar) : splitOnChar sep l ≠ [] := by
  cases l with
  | nil => simp [splitOnChar]
  | cons c r =>
    rw [splitOnChar_cons]
    rcases h : splitOnChar sep r with _ | ⟨s, ss⟩ <;> dsimp only <;> split <;> simp

theorem splitOnChar_no_sep {sep : Char} {l : LChar} (h : ∀ x ∈ l, x ≠ sep) :
    splitOnChar sep l = [l] := by
  induction l with
  | nil => rfl
  | cons c r ih =>
    rw [splitOnChar_cons]
    rw [ih (fun x hx => h x (by simp [hx]))]
    dsimp only
    rw [if_neg (h c (by simp))]

theorem splitOnChar_append {sep : Char} {l1 : LChar} (l2 : LChar)
    (h : ∀ x ∈ l1, x ≠ sep) :
    splitOnChar sep (l1 ++ sep :: l2) = l1 :: splitOnChar sep l2 := by
  induction l1 with
  | nil =>
    rw [List.nil_append, splitOnChar_cons]
    rcases hs : splitOnChar sep l2 with _ | ⟨s, ss⟩
    · exact absurd hs (splitOnChar_ne_nil sep l2)
    · dsimp only
      rw [if_pos rfl]
  | cons c t ih =>
    rw [List.cons_append, splitOnChar_cons]
    rw [ih (fun x hx => h x (by simp [hx]))]
    dsimp only
    rw [if_neg (h c (by simp))]

theorem segment_parse (k v : LChar) :
    ((formEncode k ++ '=' :: formEncode v).takeWhile (fun c => c != '=') = formEncode k)
      ∧ ((formEncode k ++ '=' :: formEncode v).dropWhile (fun c => c != '=')
          = '=' :: formEncode v) := by
  have hk : ∀ x ∈ formEncode k, (x != '=') = true := by
    intro x hx
    simpa using (formEncode_chars k x hx).2.2.2.1
  constructor
  · rw [takeWhile_append_all _ hk, List.takeWhile_cons]
    rw [if_neg (by simp)]
    simp
  · rw [dropWhile_append_all _ hk, List.dropWhile_cons]
    rw [if_neg (by simp)]

theorem serializePairs_cons_cons (p q : LChar × LChar) (rest : List (LChar × LChar)) :
    serializePairs (p :: q :: rest)
      = formEncode p.1 ++ ('=' :: formEncode p.2 ++ '&' :: serializePairs (q :: rest)) := by
  simp [serializePairs]

theorem parseQuerySegment_encode (k v : LChar) :
    parseQuerySegment (formEncode k ++ '=' :: formEncode v) = some (k, v) := by
  have hne : (formEncode k ++ '=' :: formEncode v).isEmpty = false := by
    cases h : formEncode k <;> simp [h]
  have h1 := (segment_parse k v).1
  have h2 := (segment_parse k v).2
  unfold parseQuerySegment
  rw [hne]
  simp only [Bool.false_eq_true, if_false, h1, h2, percentDecode_formEncode]

theorem parseQueryPairs_serializePairs (ps : List (LChar × LChar)) :
    parseQueryPairs (serializePairs ps) = ps := by
  induction ps with
  | nil => rfl
  | cons p rest ih =>
    cases rest with
    | nil =>
      unfold parseQueryPairs
      rw [show serializePairs [p] = formEncode p.1 ++ '=' :: formEncode p.2 from rfl]
      have hnosep : ∀ x ∈ formEncode p.1 ++ '=' :: formEncode p.2, x ≠ '&' := by
        intro x hx
        rcases List.mem_append.mp hx with hx | hx
        · exact (formEncode_chars p.1 x hx).2.2.1
        · rcases List.mem_cons.mp hx with hx | hx
          · subst hx
            decide
          · exact (formEncode_chars p.2 x hx).2.2.1
      rw [splitOnChar_no_sep hnosep]
      rw [List.filterMap_cons]
      rw [parseQuerySegment_encode p.1 p.2]
      simp
    | cons q rest2 =>
      unfold parseQueryPairs
      rw [serializePairs_cons_cons]
      rw [show formEncode p.1 ++ ('=' :: formEncode p.2 ++ '&' :: serializePairs (q :: rest2))
          = (formEncode p.1 ++ '=' :: formEncode p.2) ++ '&' :: serializePairs (q :: rest2) by
        simp]
      have hnosep : ∀ x ∈ formEncode p.1 ++ '=' :: formEncode p.2, x ≠ '&' := by
        intro x hx
        rcases List.mem_append.mp hx with hx | hx
        · exact (formEncode_chars p.1 x hx).2.2.1
        · rcases List.mem_cons.mp hx with hx | hx
          · subst hx
            decide
          · exact (formEncode_chars p.2 x hx).2.2.1
      rw [splitOnChar_append _ hnosep]
      rw [List.filterMap_cons]
      rw [parseQuerySegment_encode p.1 p.2]
      unfold parseQueryPairs at ih
      simp [ih]

theorem pctEncodeWsChar_chars (c : Char) :
    ∀ x ∈ pctEncodeWsChar c,
      (x = c ∧ isWsChar c = false) ∨ x = '%' ∨ x ∈ "0123456789ABCDEF".data := by
  intro x hx
  unfold pctEncodeWsChar at hx
  by_cases hw : isWsChar c = true
  · rw [if_pos hw] at hx
    simp at hx
    rcases hx with hx | hx | hx
    · exact Or.inr (Or.inl hx)
    · subst hx
      exact Or.inr (Or.inr (mem_hexDigitUpper _))
    · subst hx
      exact Or.inr (Or.inr (mem_hexDigitUpper _))
  · rw [if_neg hw] at hx
    simp at hx
    subst hx
    exact Or.inl ⟨rfl, by simpa using hw⟩

theorem pctEncodeWs_no_ws (l : LChar) : ∀ x ∈ pctEncodeWs l, isWsChar x = false := by
  induction l with
  | nil =>
    intro x hx
    simp [pctEncodeWs] at hx
  | cons c r ih =>
    intro x hx
    rw [show pctEncodeWs (c :: r) = pctEncodeWsChar c ++ pctEncodeWs r from rfl] at hx
    rcases List.mem_append.mp hx with hx | hx
    · rcases pctEncodeWsChar_chars c x hx with ⟨hx, hc⟩ | hx | hx
      · subst hx
        exact hc
      · subst hx
        decide
      · exact (hexlist_facts x hx).1
    · exact ih x hx

theorem pctEncodeWs_id {l : LChar} (h : ∀ x ∈ l, isWsChar x = false) :
    pctEncodeWs l = l := by
  induction l with
  | nil => rfl
  | cons c r ih =>
    rw [show pctEncodeWs (c :: r) = pctEncodeWsChar c ++ pctEncodeWs r from rfl]
    rw [show pctEncodeWsChar c = [c] from by unfold pctEncodeWsChar; rw [if_neg
      (by simp [h c (by simp)])]]
    rw [ih (fun x hx => h x (by simp [hx]))]
    rfl

theorem pctEncodeWs_not_pathDelim {l : LChar} (h : ∀ x ∈ l, pathDelim x = false) :
    ∀ x ∈ pctEncodeWs l, pathDelim x = false := by
  induction l with
  | nil =>
    intro x hx
    simp [pctEncodeWs] at hx
  | cons c r ih =>
    intro x hx
    rw [show pctEncodeWs (c :: r) = pctEncodeWsChar c ++ pctEncodeWs r from rfl] at hx
    rcases List.mem_append.mp hx with hx | hx
    · rcases pctEncodeWsChar_chars c x hx with ⟨hx, _⟩ | hx | hx
      · rw [hx]
        exact h c (by simp)
      · subst hx
        decide
      · exact (hexlist_facts x hx).2.2.2.2.2.2
    · exact ih (fun y hy => h y (by simp [hy])) x hx

theorem pctEncodeWs_not_hash {l : LChar} (h : ∀ x ∈ l, x ≠ '#') :
    ∀ x ∈ pctEncodeWs l, x ≠ '#' := by
  induction l with
  | nil =>
    intro x hx
    simp [pctEncodeWs] at hx
  | cons c r ih =>
    intro x hx
    rw [show pctEncodeWs (c :: r) = pctEncodeWsChar c ++ pctEncodeWs r from rfl] at hx
    rcases List.mem_append.mp hx with hx | hx
    · rcases pctEncodeWsChar_chars c x hx with ⟨hx, _⟩ | hx | hx
      · rw [hx]
        exact h c (by simp)
      · subst hx
        decide
      · exact (hexlist_facts x hx).2.2.2.2.1
    · exact ih (fun y hy => h y (by simp [hy])) x hx

theorem pctEncodeWs_cons_slash (t : LChar) :
    pctEncodeWs ('/' :: t) = '/' :: pctEncodeWs t := by
  rw [show pctEncodeWs ('/' :: t) = pctEncodeWsChar '/' ++ pctEncodeWs t from rfl]
  rw [show pctEncodeWsChar '/' = ['/'] from by decide]
  rfl

theorem stripTabNl_eq_self {l : LChar} (h : ∀ x ∈ l, isTabNl x = false) :
    stripTabNl l = l := by
  unfold stripTabNl
  apply List.filter_eq_self.mpr
  intro x hx
  simp [h x hx]

theorem jsTrim_eq_self_of_no_ws {l : LChar} (h : ∀ x ∈ l, isWsChar x = false) :
    jsTrim l = l := by
  unfold jsTrim
  rw [dropWhile_eq_self_of_all h]
  rw [dropWhile_eq_self_of_all (fun x hx => h x (List.mem_reverse.mp hx))]
  simp

theorem serializePairs_chars (ps : List (LChar × LChar)) :
    ∀ x ∈ serializePairs ps, isWsChar x = false ∧ isTabNl x = false ∧ x ≠ '#' := by
  induction ps with
  | nil =>
    intro x hx
    simp [serializePairs] at hx
  | cons p rest ih =>
    intro x hx
    cases rest with
    | nil =>
      rw [show serializePairs [p] = formEncode p.1 ++ '=' :: formEncode p.2 from rfl] at hx
      rcases List.mem_append.mp hx with hx | hx
      · have := formEncode_chars p.1 x hx
        exact ⟨this.1, this.2.1, this.2.2.2.2⟩
      · rcases List.mem_cons.mp hx with hx | hx
        · subst hx
          exact ⟨by decide, by decide, by decide⟩
        · have := formEncode_chars p.2 x hx
          exact ⟨this.1, this.2.1, this.2.2.2.2⟩
    | cons q rest2 =>
      rw [serializePairs_cons_cons] at hx
      rcases List.mem_append.mp hx with hx | hx
      · have := formEncode_chars p.1 x hx
        exact ⟨this.1, this.2.1, this.2.2.2.2⟩
      · rcases List.mem_cons.mp hx with hx | hx
        · subst hx
          exact ⟨by decide, by decide, by decide⟩
        · rcases List.mem_append.mp hx with hx | hx
          · have := formEncode_chars p.2 x hx
            exact ⟨this.1, this.2.1, this.2.2.2.2⟩
          · rcases List.mem_cons.mp hx with hx | hx
            · subst hx
              exact ⟨by decide, by decide, by decide⟩
            · exact ih x hx

theorem pairLe_trans (a b c : LChar × LChar) :
    pairLe a b = true → pairLe b c = true → pairLe a c = true := by
  unfold pairLe
  intro h1 h2
  by_cases hab : a.1 = b.1
  · rw [if_pos hab] at h1
    by_cases hbc : b.1 = c.1
    · rw [if_pos hbc] at h2
      rw [if_pos (hab.trans hbc)]
      exact decide_eq_true (le_trans (of_decide_eq_true h1) (of_decide_eq_true h2))
    · rw [if_neg hbc] at h2
      have hlt := of_decide_eq_true h2
      rw [if_neg (by rw [hab]; exact hbc)]
      rw [hab]
      exact decide_eq_true hlt
  · rw [if_neg hab] at h1
    have hlt1 := of_decide_eq_true h1
    by_cases hbc : b.1 = c.1
    · rw [if_neg (by rw [← hbc]; exact hab)]
      rw [← hbc]
      exact decide_eq_true hlt1
    · rw [if_neg hbc] at h2
      have hlt2 := of_decide_eq_true h2
      rw [if_neg (ne_of_lt (lt_trans hlt1 hlt2))]
      exact decide_eq_true (lt_trans hlt1 hlt2)

theorem pairLe_total (a b : LChar × LChar) : pairLe a b || pairLe b a := by
  unfold pairLe
  by_cases hab : a.1 = b.1
  · rw [if_pos hab, if_pos hab.symm]
    rcases le_total a.2 b.2 with h | h
    · rw [decide_eq_true h]
      simp
    · rw [decide_eq_true h]
      simp
  · rw [if_neg hab, if_neg (fun h => hab h.symm)]
    rcases lt_or_gt_of_ne hab with h | h
    · rw [decide_eq_true h]
      simp
    · rw [decide_eq_true h]
      simp

theorem hostDelim_cases {c : Char} (h : hostDelim c = true) :
    c = '/' ∨ c = '?' ∨ c = '#' := by
  unfold hostDelim at h
  have h2 : (c = '/' ∨ c = '?') ∨ c = '#' := by simpa using h
  tauto

theorem path_mem_wf {r2 : LChar} :
    ∀ c ∈ pctEncodeWs (r2.takeWhile (fun c => !pathDelim c)),
      pathDelim c = false ∧ isWsChar c = false := by
  intro c hc
  refine ⟨?_, pctEncodeWs_no_ws _ c hc⟩
  refine pctEncodeWs_not_pathDelim ?_ c hc
  intro x hx
  have := List.mem_takeWhile_imp hx
  simpa using this

theorem path_shape_wf {r : LChar} :
    pctEncodeWs ((r.dropWhile (fun c => !hostDelim c)).takeWhile (fun c => !pathDelim c)) = []
      ∨ ∃ t, pctEncodeWs ((r.dropWhile (fun c => !hostDelim c)).takeWhile
          (fun c => !pathDelim c)) = '/' :: t := by
  rcases hr2 : r.dropWhile (fun c => !hostDelim c) with _ | ⟨c2, t2⟩
  · left
    rfl
  · have hc2 : hostDelim c2 = true := by
      have := dropWhile_head_false hr2
      simpa using this
    rcases hostDelim_cases hc2 with hc | hc | hc
    · subst hc
      right
      rw [List.takeWhile_cons, if_pos (by decide)]
      rw [pctEncodeWs_cons_slash]
      exact ⟨_, rfl⟩
    · subst hc
      left
      rw [List.takeWhile_cons, if_neg (by decide)]
      rfl
    · subst hc
      left
      rw [List.takeWhile_cons, if_neg (by decide)]
      rfl

theorem query_mem_wf {r4 : LChar} :
    ∀ c ∈ pctEncodeWs (r4.takeWhile (fun c => c != '#')), c ≠ '#' ∧ isWsChar c = false := by
  intro c hc
  refine ⟨?_, pctEncodeWs_no_ws _ c hc⟩
  refine pctEncodeWs_not_hash ?_ c hc
  intro x hx
  have := List.mem_takeWhile_imp hx
  simpa using this

theorem parseUrl_wf {l : LChar} {u : UrlModel} (h : parseUrl l = some u) :
    u.scheme ≠ [] ∧ (∀ c ∈ u.scheme, c.isAlpha = true)
    ∧ u.host ≠ [] ∧ (∀ c ∈ u.host, hostDelim c = false ∧ isWsChar c = false)
    ∧ (∀ c ∈ u.path, pathDelim c = false ∧ isWsChar c = false)
    ∧ (u.path = [] ∨ ∃ t, u.path = '/' :: t)
    ∧ (∀ q, u.query = some q → ∀ c ∈ q, c ≠ '#' ∧ isWsChar c = false) := by
  simp only [parseUrl] at h
  split at h
  case h_2 => cases h
  case h_1 r heq =>
    by_cases hscheme : ((stripTabNl l).takeWhile Char.isAlpha).isEmpty = true
    · rw [if_pos hscheme] at h
      cases h
    · rw [if_neg hscheme] at h
      by_cases hhost : ((List.takeWhile (fun c => !hostDelim c) r).isEmpty
          || (List.takeWhile (fun c => !hostDelim c) r).any isWsChar) = true
      · rw [if_pos hhost] at h
        cases h
      · rw [if_neg hhost] at h
        have hhostf := Bool.or_eq_false_iff.mp (eq_false_of_ne_true hhost)
        have hs1 : (stripTabNl l).takeWhile Char.isAlpha ≠ [] := by
          intro hnil
          exact hscheme (by simp [hnil])
        have hs2 : ∀ c ∈ (stripTabNl l).takeWhile Char.isAlpha, c.isAlpha = true :=
          fun c hc => List.mem_takeWhile_imp hc
        have hh1 : List.takeWhile (fun c => !hostDelim c) r ≠ [] := by
          intro hnil
          rw [hnil] at hhostf
          simp at hhostf
        have hh2 : ∀ c ∈ List.takeWhile (fun c => !hostDelim c) r,
            hostDelim c = false ∧ isWsChar c = false := by
          intro c hc
          constructor
          · have := List.mem_takeWhile_imp hc
            simpa using this
          · have := List.any_eq_false.mp hhostf.2
            exact Bool.eq_false_iff.mpr (this c hc)
        split at h
        next r4 heq2 =>
          injection h with h
          subst h
          refine ⟨hs1, hs2, hh1, hh2, path_mem_wf, path_shape_wf, ?_⟩
          intro q hq
          injection hq with hq
          subst hq
          exact query_mem_wf
        next x heq2 =>
          injection h with h
          subst h
          refine ⟨hs1, hs2, hh1, hh2, path_mem_wf, path_shape_wf, ?_⟩
          intro q hq
          cases hq

theorem takeWhile_all_self {p : α → Bool} {l : List α} (h : ∀ x ∈ l, p x = true) :
    l.takeWhile p = l := by
  have := @takeWhile_append_all _ p l [] h
  simpa using this

theorem stop_at_head {p : α → Bool} {m : List α}
    (h : ∀ c t, m = c :: t → p c = false) : m.takeWhile p = [] ∧ m.dropWhile p = m := by
  cases m with
  | nil => exact ⟨rfl, rfl⟩
  | cons c t =>
    rw [List.takeWhile_cons, List.dropWhile_cons]
    rw [if_neg (by simp [h c t rfl]), if_neg (by simp [h c t rfl])]
    exact ⟨rfl, rfl⟩

theorem serializeUrl_no_tabnl (u : UrlModel)
    (hs2 : ∀ c ∈ u.scheme, c.isAlpha = true)
    (hh2 : ∀ c ∈ u.host, hostDelim c = false ∧ isWsChar c = false)
    (hp1 : ∀ c ∈ u.path, pathDelim c = false ∧ isWsChar c = false)
    (hq : ∀ q, u.query = some q → ∀ c ∈ q, c ≠ '#' ∧ isWsChar c = false) :
    ∀ x ∈ serializeUrl u, isTabNl x = false := by
  intro x hx
  unfold serializeUrl at hx
  rcases List.mem_append.mp hx with hx | hx
  · exact isAlpha_not_tabnl (hs2 x hx)
  · rcases List.mem_cons.mp hx with hx | hx
    · subst hx
      decide
    · rcases List.mem_cons.mp hx with hx | hx
      · subst hx
        decide
      · rcases List.mem_cons.mp hx with hx | hx
        · subst hx
          decide
        · rcases List.mem_append.mp hx with hx | hx
          · rcases List.mem_append.mp hx with hx | hx
            · exact isWsChar_false_isTabNl (hh2 x hx).2
            · exact isWsChar_false_isTabNl (hp1 x hx).2
          · rcases hqu : u.query with _ | q
            · rw [hqu] at hx
              simp at hx
            · rw [hqu] at hx
              rcases List.mem_cons.mp hx with hx | hx
              · subst hx
                decide
              · exact isWsChar_false_isTabNl ((hq q hqu) x hx).2

theorem parseUrl_serializeUrl (u : UrlModel)
    (hs1 : u.scheme ≠ []) (hs2 : ∀ c ∈ u.scheme, c.isAlpha = true)
    (hh1 : u.host ≠ []) (hh2 : ∀ c ∈ u.host, hostDelim c = false ∧ isWsChar c = false)
    (hp1 : ∀ c ∈ u.path, pathDelim c = false ∧ isWsChar c = false)
    (hp2 : u.path = [] ∨ ∃ t, u.path = '/' :: t)
    (hq : ∀ q, u.query = some q → ∀ c ∈ q, c ≠ '#' ∧ isWsChar c = false) :
    parseUrl (serializeUrl u) = some u := by
  have hclean : stripTabNl (serializeUrl u) = serializeUrl u :=
    stripTabNl_eq_self (serializeUrl_no_tabnl u hs2 hh2 hp1 hq)
  obtain ⟨sc, ho, pa, qu⟩ := u
  simp only at hs1 hs2 hh1 hh2 hp1 hp2 hq
  have hqp : ∀ c t, (pa ++ (match qu with | none => [] | some q => '?' :: q)) = c :: t
      → (!hostDelim c) = false := by
    intro c t hct
    rcases hp2 with hpa | ⟨t', hpa⟩
    · subst hpa
      rw [List.nil_append] at hct
      rcases qu with _ | q
      · cases hct
      · injection hct with h1 _
        subst h1
        decide
    · subst hpa
      injection hct with h1 _
      subst h1
      decide
  have hqph : ∀ c t, (match qu with | none => ([] : LChar) | some q => '?' :: q) = c :: t
      → (!pathDelim c) = false := by
    intro c t hct
    rcases qu with _ | q
    · cases hct
    · injection hct with h1 _
      subst h1
      decide
  have hser : serializeUrl ⟨sc, ho, pa, qu⟩
      = sc ++ ':' :: '/' :: '/' :: (ho ++ (pa
          ++ (match qu with | none => [] | some q => '?' :: q))) := by
    unfold serializeUrl
    simp
  rw [hser] at hclean
  simp only [parseUrl]
  rw [hser, hclean]
  rw [takeWhile_append_all _ hs2, dropWhile_append_all _ hs2]
  rw [show (':' :: '/' :: '/' :: (ho ++ (pa
      ++ (match qu with | none => [] | some q => '?' :: q)))).takeWhile Char.isAlpha = []
    from by rw [List.takeWhile_cons, if_neg (by decide)]]
  rw [show (':' :: '/' :: '/' :: (ho ++ (pa
      ++ (match qu with | none => [] | some q => '?' :: q)))).dropWhile Char.isAlpha
      = ':' :: '/' :: '/' :: (ho ++ (pa
        ++ (match qu with | none => [] | some q => '?' :: q)))
    from by rw [List.dropWhile_cons, if_neg (by decide)]]
  split
  case h_2 h => exact absurd rfl (h _)
  case h_1 r heqr =>
  injection heqr with _ heqr
  injection heqr with _ heqr
  injection heqr with _ heqr
  subst heqr
  rw [takeWhile_append_all _ (fun c hc => by simp [(hh2 c hc).1]),
    dropWhile_append_all _ (fun c hc => by simp [(hh2 c hc).1])]
  rw [(stop_at_head hqp).1, (stop_at_head hqp).2]
  rw [show (ho ++ ([] : LChar)) = ho from by simp]
  rw [if_neg (by simp [hs1])]
  rw [if_neg (by
    simp only [Bool.or_eq_true]
    rintro (hc | hc)
    · simp [hh1] at hc
    · rcases List.any_eq_true.mp hc with ⟨c, hc1, hc2⟩
      rw [(hh2 c hc1).2] at hc2
      cases hc2)]
  rw [takeWhile_append_all _ (fun c hc => by simp [(hp1 c hc).1]),
    dropWhile_append_all _ (fun c hc => by simp [(hp1 c hc).1])]
  rw [(stop_at_head hqph).1, (stop_at_head hqph).2]
  rw [show (pa ++ ([] : LChar)) = pa from by simp]
  rcases qu with _ | q
  · dsimp only
    rw [pctEncodeWs_id (fun c hc => (hp1 c hc).2)]
    simp
  · dsimp only
    split
    case h_2 h => exact absurd rfl (h q)
    case h_1 r4 heq4 =>
    injection heq4 with _ heq4
    subst heq4
    rw [takeWhile_all_self (fun c hc => by simp [(hq q rfl c hc).1])]
    rw [pctEncodeWs_id (fun c hc => (hp1 c hc).2)]
    rw [pctEncodeWs_id (fun c hc => (hq q rfl c hc).2)]
    simp

theorem serializeUrl_no_ws (u : UrlModel)
    (hs2 : ∀ c ∈ u.scheme, c.isAlpha = true)
    (hh2 : ∀ c ∈ u.host, hostDelim c = false ∧ isWsChar c = false)
    (hp1 : ∀ c ∈ u.path, pathDelim c = false ∧ isWsChar c = false)
    (hq : ∀ q, u.query = some q → ∀ c ∈ q, c ≠ '#' ∧ isWsChar c = false) :
    ∀ x ∈ serializeUrl u, isWsChar x = false := by
  intro x hx
  unfold serializeUrl at hx
  rcases List.mem_append.mp hx with hx | hx
  · exact isAlpha_not_ws (hs2 x hx)
  · rcases List.mem_cons.mp hx with hx | hx
    · subst hx
      decide
    · rcases List.mem_cons.mp hx with hx | hx
      · subst hx
        decide
      · rcases List.mem_cons.mp hx with hx | hx
        · subst hx
          decide
        · rcases List.mem_append.mp hx with hx | hx
          · rcases List.mem_append.mp hx with hx | hx
            · exact (hh2 x hx).2
            · exact (hp1 x hx).2
          · rcases hqu : u.query with _ | q
            · rw [hqu] at hx
              simp at hx
            · rw [hqu] at hx
              rcases List.mem_cons.mp hx with hx | hx
              · subst hx
                decide
              · exact ((hq q hqu) x hx).2

theorem serializeUrl_not_empty (u : UrlModel) : (serializeUrl u).isEmpty = false := by
  obtain ⟨sc, ho, pa, qu⟩ := u
  unfold serializeUrl
  cases sc <;> simp

theorem canonQuery_none : canonQuery none = none := by
  simp [canonQuery]

theorem canonQuery_wf (q : Option LChar) :
    ∀ qq, canonQuery q = some qq → ∀ c ∈ qq, c ≠ '#' ∧ isWsChar c = false := by
  intro qq hqq c hc
  simp only [canonQuery] at hqq
  split at hqq
  · cases hqq
  · injection hqq with hqq
    subst hqq
    have := serializePairs_chars _ c hc
    exact ⟨this.2.2, this.1⟩

theorem canonQuery_some_serialize (S : List (LChar × LChar))
    (hkeep : ∀ p ∈ S, (!isTrackedKey p.1) = true)
    (hsorted : S.Pairwise (fun a b => pairLe a b = true))
    (hne : S.isEmpty = false) :
    canonQuery (some (serializePairs S)) = some (serializePairs S) := by
  simp only [canonQuery]
  rw [parseQueryPairs_serializePairs]
  rw [List.filter_eq_self.mpr hkeep]
  rw [List.mergeSort_of_sorted hsorted]
  rw [if_neg (by simp [hne])]

theorem canonQuery_idem (q : Option LChar) : canonQuery (canonQuery q) = canonQuery q := by
  rcases hq : canonQuery q with _ | qq
  · exact canonQuery_none
  · simp only [canonQuery] at hq
    split at hq
    · cases hq
    · next hs =>
      injection hq with hq
      subst hq
      refine canonQuery_some_serialize _ ?_
        (@List.sorted_mergeSort _ pairLe pairLe_trans pairLe_total _)
        (eq_false_of_ne_true hs)
      intro p hp
      have h2 := List.mem_mergeSort.mp hp
      have h3 := List.of_mem_filter h2
      exact h3

theorem canonUrlOf_idem (u : UrlModel) : canonUrlOf (canonUrlOf u) = canonUrlOf u := by
  unfold canonUrlOf
  simp [lowerL_idem, canonQuery_idem]

/-- C8: `canonicalizeUrl` is idempotent: canonicalizing twice equals
canonicalizing once, for every input; and when the trimmed input does not
parse as an absolute URL, canonicalization returns the trimmed input
unchanged. -/
theorem canonicalizeUrl_idem (raw : LChar) :
    canonicalizeUrl (canonicalizeUrl raw) = canonicalizeUrl raw
    ∧ ((jsTrim raw).isEmpty = false → parseUrl (jsTrim raw) = none →
        canonicalizeUrl raw = jsTrim raw) := by
  constructor
  · by_cases h0 : (jsTrim raw).isEmpty = true
    · have h1 : canonicalizeUrl raw = [] := by
        simp only [canonicalizeUrl]
        rw [if_pos h0]
      rw [h1]
      decide
    · have h0' : (jsTrim raw).isEmpty = false := eq_false_of_ne_true h0
      rcases hp : parseUrl (jsTrim raw) with _ | u
      · have h1 : canonicalizeUrl raw = jsTrim raw := by
          simp only [canonicalizeUrl]
          rw [if_neg h0, hp]
        rw [h1]
        simp only [canonicalizeUrl]
        rw [jsTrim_idem]
        rw [if_neg h0, hp]
      · obtain ⟨w1, w2, w3, w4, w5, w6, w7⟩ := parseUrl_wf hp
        have h1 : canonicalizeUrl raw = serializeUrl (canonUrlOf u) := by
          simp only [canonicalizeUrl]
          rw [if_neg h0, hp]
        have hh1' : lowerL u.host ≠ [] := by
          intro hnil
          exact w3 (by simpa [lowerL] using hnil)
        have hh2' : ∀ c ∈ lowerL u.host, hostDelim c = false ∧ isWsChar c = false := by
          intro c hc
          unfold lowerL at hc
          obtain ⟨c0, hc0, rfl⟩ := List.mem_map.mp hc
          exact ⟨toLower_not_hostDelim (w4 c0 hc0).1, toLower_not_ws (w4 c0 hc0).2⟩
        have hq' := canonQuery_wf u.query
        have hp2' := parseUrl_serializeUrl (canonUrlOf u) w1 w2 hh1' hh2' w5 w6 hq'
        have hnows := serializeUrl_no_ws (canonUrlOf u) w2 hh2' w5 hq'
        have htrim := jsTrim_eq_self_of_no_ws hnows
        have hne := serializeUrl_not_empty (canonUrlOf u)
        rw [h1]
        simp only [canonicalizeUrl, htrim, hne, hp2']
        rw [canonUrlOf_idem]
        simp
  · intro h0 hpn
    simp only [canonicalizeUrl]
    rw [if_neg (by simp [h0]), hpn]

/-- Witness for `canonicalizeUrl_idem`: the input `"notaurl "` has a
nonempty trim that does not parse as an absolute URL, and
canonicalization returns the trimmed input unchanged. -/
theorem canonicalizeUrl_idem_witness :
    (jsTrim ['n', 'o', 't', 'a', 'u', 'r', 'l', ' ']).isEmpty = false
    ∧ parseUrl (jsTrim ['n', 'o', 't', 'a', 'u', 'r', 'l', ' ']) = none
    ∧ canonicalizeUrl ['n', 'o', 't', 'a', 'u', 'r', 'l', ' ']
        = jsTrim ['n', 'o', 't', 'a', 'u', 'r', 'l', ' '] :=
  ⟨by decide, by decide,
    (canonicalizeUrl_idem ['n', 'o', 't', 'a', 'u', 'r', 'l', ' ']).2 (by decide) (by decide)⟩
